import Mathlib

/-!
Verification of the SCD Type-2 reconciliation engine and the frontend
helpers of the data-pipeline-testing repository.

The Python engine (`python_svc/utils/customer_etl.py`, `python_svc/main.py`)
is described by the design spec and by `python_svc/etl_analysis_report.md`;
its operations are modelled here from the spec.  The frontend helpers
(`parseTestCases`, `handleConnectionToggle`) are embedded directly from the
React source.
-/

namespace SCD2

/-- Modelled from the spec: tracked business attributes are a mapping from
attribute name to an optional value; an absent/null field is `none`
(spec section 3, `customer_etl.py` is not in the source snapshot). -/
def Attrs : Type := String → Option String

/-- Modelled from the spec: one incoming entity observation (section 3). -/
structure SourceRecord where
  natural_key : String
  attrs : Attrs

/-- Modelled from the spec: one persisted version of an entity (section 3).
Timestamps are naturals. -/
structure DimensionRow where
  surrogate_key : Nat
  natural_key : String
  attrs : Attrs
  effective_start : Nat
  effective_end : Option Nat
  is_current : Bool
  created_at : Nat
  updated_at : Nat

/-- Modelled from the spec: the classifier's result type (section 4.2). -/
inductive ChangeKind where
  | NewEntity
  | Unchanged
  | Type1Change
  | Type2Change
deriving DecidableEq, Repr

/-- Modelled from the spec: canonical normalization applied to both sides
before a field comparison (sections 4.2 and 9): leading and trailing
whitespace of the string value is removed (computed over the character
list). -/
def canon : Option String → Option String :=
  Option.map fun s =>
    String.mk (((s.data.dropWhile Char.isWhitespace).reverse.dropWhile
      Char.isWhitespace).reverse)

/-- Modelled from the spec: null-aware field comparison — a field present on
one side and absent/null on the other counts as changed (section 4.2). -/
def fieldChanged (cur inc : Attrs) (f : String) : Bool :=
  decide (canon (cur f) ≠ canon (inc f))

/-- Modelled from the spec: the pure change classifier (section 4.2), with
Type-2 precedence over Type-1. -/
def classify (current : Option DimensionRow) (incoming : SourceRecord)
    (t2 t1 : List String) : ChangeKind :=
  match current with
  | none => .NewEntity
  | some c =>
    if t2.any (fun f => fieldChanged c.attrs incoming.attrs f) then .Type2Change
    else if t1.any (fun f => fieldChanged c.attrs incoming.attrs f) then .Type1Change
    else .Unchanged

/-- Modelled from the spec: the dimension store (section 4.5) — the persisted
rows plus the strictly-increasing surrogate-key allocator. -/
structure Store where
  rows : List DimensionRow
  nextKey : Nat

/-- Modelled from the spec: `getCurrent(naturalKey)` (section 4.5). -/
def getCurrent (st : Store) (nk : String) : Option DimensionRow :=
  st.rows.find? (fun r => r.natural_key == nk && r.is_current)

/-- Modelled from the spec: the row built by `insertNew` (section 4.3). -/
def newRow (st : Store) (rec : SourceRecord) (ts : Nat) : DimensionRow :=
  { surrogate_key := st.nextKey
    natural_key := rec.natural_key
    attrs := rec.attrs
    effective_start := ts
    effective_end := none
    is_current := true
    created_at := ts
    updated_at := ts }

/-- Modelled from the spec: `insertNew(incoming)` — allocates the next
surrogate key and persists one new current row (section 4.3). -/
def insertNew (st : Store) (rec : SourceRecord) (ts : Nat) : Store :=
  { rows := st.rows ++ [newRow st rec ts], nextKey := st.nextKey + 1 }

/-- Modelled from the spec: the effect of `expire` on the targeted row
(section 4.3). -/
def expireRow (r : DimensionRow) (ts : Nat) : DimensionRow :=
  { r with effective_end := some ts, is_current := false, updated_at := ts }

/-- Modelled from the spec: `expire(current)` (section 4.3), addressing the
stored row by its surrogate key. -/
def expire (st : Store) (cur : DimensionRow) (ts : Nat) : Store :=
  { st with
    rows := st.rows.map fun r =>
      if r.surrogate_key = cur.surrogate_key then expireRow r ts else r }

/-- Modelled from the spec: the in-place Type-1 merge — only the Type-1
fields take the incoming values (section 4.3). -/
def type1Merge (curAttrs incAttrs : Attrs) (t1 : List String) : Attrs :=
  fun f => if f ∈ t1 then incAttrs f else curAttrs f

/-- Modelled from the spec: `applyType1(current, incoming)` (section 4.3). -/
def applyType1 (st : Store) (cur : DimensionRow) (rec : SourceRecord)
    (t1 : List String) (ts : Nat) : Store :=
  { st with
    rows := st.rows.map fun r =>
      if r.surrogate_key = cur.surrogate_key then
        { r with attrs := type1Merge r.attrs rec.attrs t1, updated_at := ts }
      else r }

/-- Modelled from the spec: `applyType2(current, incoming)` — expire the
current row, then insert the new version (section 4.3). -/
def applyType2 (st : Store) (cur : DimensionRow) (rec : SourceRecord)
    (ts : Nat) : Store :=
  insertNew (expire st cur ts) rec ts

/-- Modelled from the spec: the transactional wrapper around `applyType2`
(section 5): if the insert step fails, the transaction rolls back entirely
and the store is left untouched. -/
def applyType2Tx (st : Store) (cur : DimensionRow) (rec : SourceRecord)
    (ts : Nat) (insertFails : Bool) : Store :=
  if insertFails then st else applyType2 st cur rec ts

/-- Modelled from the spec: one Fetch-Classify-Apply step of the
Reconciliation Driver (section 4.4), returning the updated store and the
classification. -/
def reconcileRecord (t2 t1 : List String) (ts : Nat) (st : Store)
    (rec : SourceRecord) : Store × ChangeKind :=
  match getCurrent st rec.natural_key with
  | none => (insertNew st rec ts, .NewEntity)
  | some cur =>
    match classify (some cur) rec t2 t1 with
    | .Type2Change => (applyType2 st cur rec ts, .Type2Change)
    | .Type1Change => (applyType1 st cur rec t1 ts, .Type1Change)
    | _ => (st, .Unchanged)

/-- Modelled from the spec: the number of store writes (insert or update
calls) each classification causes (sections 4.3 and 4.5). -/
def writesOf : ChangeKind → Nat
  | .NewEntity => 1
  | .Type2Change => 2
  | .Type1Change => 1
  | .Unchanged => 0

/-- Modelled from the spec: a full sequential run over a batch
(sections 4.4 and 5), also collecting the classification of each record. -/
def runBatchK (t2 t1 : List String) (ts : Nat) (st : Store) :
    List SourceRecord → Store × List ChangeKind
  | [] => (st, [])
  | rec :: rest =>
    let step := reconcileRecord t2 t1 ts st rec
    let tail := runBatchK t2 t1 ts step.1 rest
    (tail.1, step.2 :: tail.2)

/-- Modelled from the spec: the store produced by a completed run. -/
def runBatch (t2 t1 : List String) (ts : Nat) (st : Store)
    (batch : List SourceRecord) : Store :=
  (runBatchK t2 t1 ts st batch).1

/-- The rows stored for one natural key, in insertion order. -/
def keyRows (st : Store) (nk : String) : List DimensionRow :=
  st.rows.filter fun r => r.natural_key == nk

/-- The current rows stored for one natural key. -/
def currentRows (st : Store) (nk : String) : List DimensionRow :=
  (keyRows st nk).filter fun r => r.is_current

/-- Invariant 1 of the data model: every natural key that has at least one
row has exactly one current row. -/
def exactlyOneCurrent (st : Store) : Prop :=
  ∀ nk, keyRows st nk ≠ [] → (currentRows st nk).length = 1

/-- At most one current row per natural key. -/
def atMostOneCurrent (st : Store) : Prop :=
  ∀ nk, (currentRows st nk).length ≤ 1

/-- Store well-formedness: surrogate keys are all below the allocator and
pairwise distinct (section 4.5: strictly increasing, unique keys). -/
def WF (st : Store) : Prop :=
  (∀ r ∈ st.rows, r.surrogate_key < st.nextKey) ∧
    (st.rows.map fun r => r.surrogate_key).Nodup

/-- Consecutive version link: the earlier version's interval ends exactly
where the next one starts, and starts strictly before it. -/
def rowLink (a b : DimensionRow) : Prop :=
  a.effective_end = some b.effective_start ∧
    a.effective_start < b.effective_start

/-- The temporal-history invariant for the versions of one natural key, in
insertion order: consecutive versions are linked, all but the last version
are expired, and the last version is current and open-ended. -/
def chainOk (l : List DimensionRow) : Prop :=
  List.Chain' rowLink l ∧
    (∀ r ∈ l.dropLast, r.is_current = false) ∧
    (∀ r, l.getLast? = some r → r.is_current = true ∧ r.effective_end = none)

/-- Invariant 2 of the data model: every natural key's version history forms
a well-formed temporal chain. -/
def storeChainOk (st : Store) : Prop :=
  ∀ nk, chainOk (keyRows st nk)

/-- A timestamp lies in a row's effective interval `[start, end)`, the
interval being open-ended while the row is current. -/
def inInterval (r : DimensionRow) (t : Nat) : Prop :=
  r.effective_start ≤ t ∧ ∀ e, r.effective_end = some e → t < e

end SCD2

namespace Frontend

/-- A parsed declarative test case (`parseTestCases` in the React
pipelines page). -/
structure TestCase where
  name : String
  steps : List String
deriving DecidableEq, Repr

/-- A line whose trimmed form opens a new test case. -/
def isHeaderLine (line : String) : Bool :=
  let t := line.trim
  t.startsWith "Feature:" || t.startsWith "Scenario:" || t.startsWith "- name:"

/-- A line whose trimmed form is a test step. -/
def isStepLine (line : String) : Bool :=
  let t := line.trim
  t.startsWith "Given" || t.startsWith "When" || t.startsWith "Then" ||
    t.startsWith "And" || t.startsWith "-"

/-- The case name: the header keyword and the whitespace following it are
stripped from the trimmed line. -/
def caseNameOf (line : String) : String :=
  let t := line.trim
  if t.startsWith "Feature:" then (t.drop ("Feature:".length)).trimLeft
  else if t.startsWith "Scenario:" then (t.drop ("Scenario:".length)).trimLeft
  else if t.startsWith "- name:" then (t.drop ("- name:".length)).trimLeft
  else t

/-- One step of the line loop of `parseTestCases`: the accumulated closed
cases plus the currently open case. -/
def stepCase (acc : List TestCase × Option TestCase) (line : String) :
    List TestCase × Option TestCase :=
  if isHeaderLine line then
    (acc.1 ++ acc.2.toList, some { name := caseNameOf line, steps := [] })
  else if isStepLine line then
    (acc.1, acc.2.map fun c => { c with steps := c.steps ++ [line.trim] })
  else acc

/-- `parseTestCases` from the pipelines page: split into lines, fold the
line loop, then close the last open case. -/
def parseTestCases (text : String) : List TestCase :=
  let r := (text.splitOn "\n").foldl stepCase ([], none)
  r.1 ++ r.2.toList

/-- The steps contributed to the most recently opened case by the lines up
to the next header line. -/
def claimSteps (ls : List String) : List String :=
  ((ls.takeWhile fun l => !isHeaderLine l).filter isStepLine).map String.trim

/-- Declarative reading of the parser, by fuel-bounded recursion (the fuel
stays at or above the number of remaining lines, so it never runs out): one
case per header line, in input order, each carrying the step lines up to
the next header; step lines before the first header are discarded. -/
def claimParseGo : Nat → List String → List TestCase
  | _, [] => []
  | 0, _ :: _ => []
  | fuel + 1, l :: ls =>
    if isHeaderLine l then
      { name := caseNameOf l, steps := claimSteps ls } ::
        claimParseGo fuel (ls.dropWhile fun l => !isHeaderLine l)
    else
      claimParseGo fuel ls

/-- Declarative reading of `parseTestCases` on a list of lines. -/
def claimParse (ls : List String) : List TestCase :=
  claimParseGo ls.length ls

/-- Recursive form of the line loop of `parseTestCases`: the cases emitted
from this point on, given the currently open case. -/
def parseAux : List String → Option TestCase → List TestCase
  | [], cur => cur.toList
  | l :: ls, cur =>
    if isHeaderLine l then
      cur.toList ++ parseAux ls (some { name := caseNameOf l, steps := [] })
    else if isStepLine l then
      parseAux ls (cur.map fun c => { c with steps := c.steps ++ [l.trim] })
    else
      parseAux ls cur

/-- The selection state touched by `handleConnectionToggle`. -/
structure FormSelections where
  sourceConnections : List String
  targetConnections : List String
deriving DecidableEq, Repr

/-- The list update performed by `handleConnectionToggle`: remove the id if
present, append it otherwise. -/
def toggleList (l : List String) (connectionId : String) : List String :=
  if l.contains connectionId then l.filter fun id => id != connectionId
  else l ++ [connectionId]

/-- `handleConnectionToggle` from the pipelines page: the source list is
toggled when the connection type is `source`, the target list otherwise. -/
def handleConnectionToggle (s : FormSelections) (connectionId : String)
    (connectionType : String) : FormSelections :=
  if connectionType = "source" then
    { s with sourceConnections := toggleList s.sourceConnections connectionId }
  else
    { s with targetConnections := toggleList s.targetConnections connectionId }

/-- The list selected by the connection type. -/
def chosenList (s : FormSelections) (connectionType : String) : List String :=
  if connectionType = "source" then s.sourceConnections else s.targetConnections

/-- The list not selected by the connection type. -/
def otherList (s : FormSelections) (connectionType : String) : List String :=
  if connectionType = "source" then s.targetConnections else s.sourceConnections

end Frontend

namespace SCD2

/-- Modelled from the spec: the injected outcome of processing one record,
used to model the Driver's error policy (sections 4.4 and 7; `main.py` is
not in the source snapshot).  `ok`: the record applies normally;
`malformed`: the row raises MalformedInputError; `staleOnce`: the apply
raises StaleRowError once and the single re-fetch-and-retry succeeds;
`staleTwice`: the retry fails again; `storeDown`: the store raises
StoreUnavailableError. -/
inductive Outcome where
  | ok
  | malformed
  | staleOnce
  | staleTwice
  | storeDown
deriving DecidableEq, Repr

/-- Modelled from the spec: the run summary exposed by the Driver
(sections 4.4 and 6); `errors` holds the natural keys of failed records. -/
structure Summary where
  processed : Nat
  inserted : Nat
  type1Updated : Nat
  type2Versioned : Nat
  unchanged : Nat
  failed : Nat
  errors : List String
deriving DecidableEq, Repr

/-- The all-zero summary a run starts from. -/
def emptySummary : Summary :=
  { processed := 0, inserted := 0, type1Updated := 0, type2Versioned := 0,
    unchanged := 0, failed := 0, errors := [] }

/-- Modelled from the spec: tally one successfully applied record by its
classification (section 4.4). -/
def tallyKind (s : Summary) (k : ChangeKind) : Summary :=
  { s with
    processed := s.processed + 1
    inserted := s.inserted + (if k = .NewEntity then 1 else 0)
    type1Updated := s.type1Updated + (if k = .Type1Change then 1 else 0)
    type2Versioned := s.type2Versioned + (if k = .Type2Change then 1 else 0)
    unchanged := s.unchanged + (if k = .Unchanged then 1 else 0) }

/-- Modelled from the spec: record a per-record failure (section 7): the
record is marked failed and its natural key is appended to the errors
list. -/
def recordFail (s : Summary) (rec : SourceRecord) : Summary :=
  { s with
    processed := s.processed + 1
    failed := s.failed + 1
    errors := s.errors ++ [rec.natural_key] }

/-- Modelled from the spec: the Driver loop with injected outcomes
(sections 4.4 and 7).  Per-record errors (`malformed`, `staleTwice`) are
recorded in the summary and processing continues with the next record; a
`storeDown` aborts the remaining batch, surfacing the partial summary
accumulated so far; `staleOnce` succeeds on its single retry and applies
normally.  The Bool of the result is true when the run aborted. -/
def driverGo (t2 t1 : List String) (ts : Nat) :
    Store → Summary → List (SourceRecord × Outcome) → Summary × Store × Bool
  | st, acc, [] => (acc, st, false)
  | st, acc, (rec, o) :: rest =>
    match o with
    | .storeDown => (acc, st, true)
    | .malformed => driverGo t2 t1 ts st (recordFail acc rec) rest
    | .staleTwice => driverGo t2 t1 ts st (recordFail acc rec) rest
    | _ =>
      let step := reconcileRecord t2 t1 ts st rec
      driverGo t2 t1 ts step.1 (tallyKind acc step.2) rest

/-- Modelled from the spec: the full Driver run; an invalid header aborts
the batch before any record is processed (section 7). -/
def runDriver (headerValid : Bool) (t2 t1 : List String) (ts : Nat)
    (st : Store) (items : List (SourceRecord × Outcome)) :
    Summary × Store × Bool :=
  if headerValid then driverGo t2 t1 ts st emptySummary items
  else (emptySummary, st, true)

/-- The outcomes the spec treats as per-record (not batch-fatal) errors. -/
def isRecordError : Outcome → Bool
  | .malformed => true
  | .staleTwice => true
  | _ => false

/-- No record of the batch hits a StoreUnavailableError. -/
def noStoreDown (items : List (SourceRecord × Outcome)) : Prop :=
  ∀ it ∈ items, it.2 ≠ Outcome.storeDown

end SCD2

namespace SCD2

theorem find?_and_filter (p q : DimensionRow → Bool) (l : List DimensionRow) :
    (l.find? fun r => p r && q r) = (l.filter p).find? q := by
  induction l with
  | nil => rfl
  | cons a l ih =>
    by_cases hp : p a
    · by_cases hq : q a
      · rw [List.find?_cons_of_pos _ (by simp [hp, hq]), List.filter_cons_of_pos hp,
          List.find?_cons_of_pos _ hq]
      · rw [List.find?_cons_of_neg _ (by simp [hp, hq]), List.filter_cons_of_pos hp,
          List.find?_cons_of_neg _ (by simpa using hq)]
        exact ih
    · rw [List.find?_cons_of_neg _ (by simp [hp]),
        List.filter_cons_of_neg (by simpa using hp)]
      exact ih

theorem find?_eq_head?_filter (p : DimensionRow → Bool) (l : List DimensionRow) :
    l.find? p = (l.filter p).head? := by
  induction l with
  | nil => rfl
  | cons a l ih =>
    by_cases hp : p a
    · rw [List.find?_cons_of_pos _ hp, List.filter_cons_of_pos hp, List.head?_cons]
    · rw [List.find?_cons_of_neg _ (by simpa using hp),
        List.filter_cons_of_neg (by simpa using hp)]
      exact ih

theorem getCurrent_eq_head? (st : Store) (nk : String) :
    getCurrent st nk = (currentRows st nk).head? := by
  unfold getCurrent currentRows keyRows
  rw [find?_and_filter, find?_eq_head?_filter]

theorem mem_keyRows {st : Store} {nk : String} {r : DimensionRow} :
    r ∈ keyRows st nk ↔ r ∈ st.rows ∧ r.natural_key = nk := by
  simp [keyRows, List.mem_filter]

theorem getCurrent_some_mem {st : Store} {nk : String} {cur : DimensionRow}
    (h : getCurrent st nk = some cur) :
    cur ∈ st.rows ∧ cur.natural_key = nk ∧ cur.is_current = true := by
  have hm := List.mem_of_find?_eq_some h
  have hp := List.find?_some h
  simp only [Bool.and_eq_true, beq_iff_eq] at hp
  exact ⟨hm, hp.1, hp.2⟩

theorem getCurrent_none_currentRows {st : Store} {nk : String}
    (h : getCurrent st nk = none) : currentRows st nk = [] := by
  have := getCurrent_eq_head? st nk
  rw [h] at this
  exact (List.head?_eq_none_iff).mp this.symm

theorem getCurrent_some_currentRows {st : Store} {nk : String} {cur : DimensionRow}
    (hone : (currentRows st nk).length = 1)
    (h : getCurrent st nk = some cur) : currentRows st nk = [cur] := by
  have hh := getCurrent_eq_head? st nk
  rw [h] at hh
  rcases hcr : currentRows st nk with _ | ⟨a, tl⟩
  · rw [hcr] at hh; simp at hh
  · rcases tl with _ | ⟨b, l⟩
    · rw [hcr] at hh
      simp only [List.head?_cons, Option.some.injEq] at hh
      rw [hh]
    · rw [hcr] at hone; simp at hone

theorem skNodup_inj {st : Store} (hwf : WF st) :
    ∀ r ∈ st.rows, ∀ s ∈ st.rows, r.surrogate_key = s.surrogate_key → r = s :=
  List.inj_on_of_nodup_map hwf.2

theorem keyRows_insertNew (st : Store) (rec : SourceRecord) (ts : Nat) (nk : String) :
    keyRows (insertNew st rec ts) nk =
      keyRows st nk ++ if rec.natural_key == nk then [newRow st rec ts] else [] := by
  unfold keyRows insertNew
  rw [List.filter_append]
  congr 1
  rw [List.filter_cons, List.filter_nil]
  rfl

theorem currentRows_insertNew (st : Store) (rec : SourceRecord) (ts : Nat) (nk : String) :
    currentRows (insertNew st rec ts) nk =
      currentRows st nk ++ if rec.natural_key == nk then [newRow st rec ts] else [] := by
  unfold currentRows
  rw [keyRows_insertNew, List.filter_append]
  congr 1
  by_cases h : rec.natural_key == nk
  · rw [if_pos h, List.filter_cons_of_pos (by rfl), List.filter_nil]
  · rw [if_neg h, List.filter_nil]

theorem keyRows_mapRows (rows : List DimensionRow) (k : Nat)
    (f : DimensionRow → DimensionRow)
    (hf : ∀ r, (f r).natural_key = r.natural_key) (nk : String) :
    keyRows ⟨rows.map f, k⟩ nk = (keyRows ⟨rows, k⟩ nk).map f := by
  unfold keyRows
  simp only
  rw [List.filter_map]
  congr 1
  apply List.filter_congr
  intro r _
  simp [Function.comp, hf]

theorem currentRows_mapRows (rows : List DimensionRow) (k : Nat)
    (f : DimensionRow → DimensionRow)
    (hf : ∀ r, (f r).natural_key = r.natural_key)
    (hc : ∀ r, (f r).is_current = r.is_current) (nk : String) :
    currentRows ⟨rows.map f, k⟩ nk = (currentRows ⟨rows, k⟩ nk).map f := by
  unfold currentRows
  rw [keyRows_mapRows rows k f hf, List.filter_map]
  congr 1
  apply List.filter_congr
  intro r _
  simp [Function.comp, hc]

end SCD2

namespace SCD2

theorem map_eq_self {l : List DimensionRow} {f : DimensionRow → DimensionRow}
    (h : ∀ a ∈ l, f a = a) : l.map f = l := by
  induction l with
  | nil => rfl
  | cons a l ih =>
    rw [List.map_cons, h a (by simp), ih fun b hb => h b (by simp [hb])]

theorem WF_insertNew {st : Store} (hwf : WF st) (rec : SourceRecord) (ts : Nat) :
    WF (insertNew st rec ts) := by
  constructor
  · intro r hr
    rcases List.mem_append.mp hr with h | h
    · exact Nat.lt_succ_of_lt (hwf.1 r h)
    · simp only [List.mem_singleton] at h
      subst h
      exact Nat.lt_succ_self _
  · unfold insertNew
    simp only [List.map_append, List.map_cons, List.map_nil]
    rw [List.nodup_append]
    refine ⟨hwf.2, List.nodup_singleton _, ?_⟩
    intro k hk hk'
    simp only [List.mem_singleton] at hk'
    rcases List.mem_map.mp hk with ⟨r, hr, hrk⟩
    subst hrk
    have hlt := hwf.1 r hr
    have hk2 : r.surrogate_key = st.nextKey := hk'
    rw [hk2] at hlt
    exact absurd hlt (lt_irrefl _)

theorem WF_mapRows {st : Store} (hwf : WF st) (f : DimensionRow → DimensionRow)
    (hsk : ∀ r, (f r).surrogate_key = r.surrogate_key) :
    WF ⟨st.rows.map f, st.nextKey⟩ := by
  constructor
  · intro r hr
    rcases List.mem_map.mp hr with ⟨s, hs, hsf⟩
    subst hsf
    rw [hsk]
    exact hwf.1 s hs
  · have : (st.rows.map f).map (fun r => r.surrogate_key) =
        st.rows.map (fun r => r.surrogate_key) := by
      rw [List.map_map]
      exact List.map_congr_left fun a _ => hsk a
    simp only
    rw [this]
    exact hwf.2

theorem WF_expire {st : Store} (hwf : WF st) (cur : DimensionRow) (ts : Nat) :
    WF (expire st cur ts) :=
  WF_mapRows hwf _ fun r => by
    by_cases h : r.surrogate_key = cur.surrogate_key <;> simp [expireRow, h]

theorem WF_applyType1 {st : Store} (hwf : WF st) (cur : DimensionRow)
    (rec : SourceRecord) (t1 : List String) (ts : Nat) :
    WF (applyType1 st cur rec t1 ts) :=
  WF_mapRows hwf _ fun r => by
    by_cases h : r.surrogate_key = cur.surrogate_key <;> simp [h]

theorem WF_applyType2 {st : Store} (hwf : WF st) (cur : DimensionRow)
    (rec : SourceRecord) (ts : Nat) : WF (applyType2 st cur rec ts) :=
  WF_insertNew (WF_expire hwf cur ts) rec ts

theorem targeted_eq_self {st : Store} (hwf : WF st) {cur : DimensionRow}
    (hcur : cur ∈ st.rows) (g : DimensionRow → DimensionRow) :
    ∀ r ∈ st.rows, r ≠ cur →
      (if r.surrogate_key = cur.surrogate_key then g r else r) = r := by
  intro r hr hne
  by_cases h : r.surrogate_key = cur.surrogate_key
  · exact absurd (skNodup_inj hwf r hr cur hcur h) hne
  · rw [if_neg h]

theorem keyRows_expire_ne {st : Store} (hwf : WF st) {cur : DimensionRow}
    (hcur : cur ∈ st.rows) (ts : Nat) {nk : String} (hnk : cur.natural_key ≠ nk) :
    keyRows (expire st cur ts) nk = keyRows st nk := by
  have hkey : ∀ r : DimensionRow,
      ((if r.surrogate_key = cur.surrogate_key then expireRow r ts else r) :
        DimensionRow).natural_key = r.natural_key := by
    intro r
    by_cases h : r.surrogate_key = cur.surrogate_key <;> simp [expireRow, h]
  have h1 : keyRows (expire st cur ts) nk =
      (keyRows st nk).map fun r =>
        if r.surrogate_key = cur.surrogate_key then expireRow r ts else r := by
    exact keyRows_mapRows st.rows st.nextKey _ hkey nk
  rw [h1]
  apply map_eq_self
  intro r hr
  have hm := mem_keyRows.mp hr
  apply targeted_eq_self hwf hcur _ r hm.1
  intro he
  subst he
  exact hnk hm.2

theorem keyRows_applyType1_eq {st : Store} (cur : DimensionRow)
    (rec : SourceRecord) (t1 : List String) (ts : Nat) (nk : String) :
    keyRows (applyType1 st cur rec t1 ts) nk =
      (keyRows st nk).map fun r =>
        if r.surrogate_key = cur.surrogate_key then
          { r with attrs := type1Merge r.attrs rec.attrs t1, updated_at := ts }
        else r := by
  apply keyRows_mapRows
  intro r
  by_cases h : r.surrogate_key = cur.surrogate_key <;> simp [h]

theorem keyRows_applyType1_ne {st : Store} (hwf : WF st) {cur : DimensionRow}
    (hcur : cur ∈ st.rows) (rec : SourceRecord) (t1 : List String) (ts : Nat)
    {nk : String} (hnk : cur.natural_key ≠ nk) :
    keyRows (applyType1 st cur rec t1 ts) nk = keyRows st nk := by
  rw [keyRows_applyType1_eq]
  apply map_eq_self
  intro r hr
  have hm := mem_keyRows.mp hr
  apply targeted_eq_self hwf hcur _ r hm.1
  intro he
  subst he
  exact hnk hm.2

theorem currentRows_applyType1 (st : Store) (cur : DimensionRow)
    (rec : SourceRecord) (t1 : List String) (ts : Nat) (nk : String) :
    currentRows (applyType1 st cur rec t1 ts) nk =
      (currentRows st nk).map fun r =>
        if r.surrogate_key = cur.surrogate_key then
          { r with attrs := type1Merge r.attrs rec.attrs t1, updated_at := ts }
        else r := by
  apply currentRows_mapRows
  · intro r
    by_cases h : r.surrogate_key = cur.surrogate_key <;> simp [h]
  · intro r
    by_cases h : r.surrogate_key = cur.surrogate_key <;> simp [h]

theorem keyRows_expire_len (st : Store) (cur : DimensionRow) (ts : Nat)
    (nk : String) :
    (keyRows (expire st cur ts) nk).length = (keyRows st nk).length := by
  have hkey : ∀ r : DimensionRow,
      ((if r.surrogate_key = cur.surrogate_key then expireRow r ts else r) :
        DimensionRow).natural_key = r.natural_key := by
    intro r
    by_cases h : r.surrogate_key = cur.surrogate_key <;> simp [expireRow, h]
  have h1 : keyRows (expire st cur ts) nk =
      (keyRows st nk).map fun r =>
        if r.surrogate_key = cur.surrogate_key then expireRow r ts else r :=
    keyRows_mapRows st.rows st.nextKey _ hkey nk
  rw [h1, List.length_map]

theorem currentRows_expire_nil {st : Store} {cur : DimensionRow} (ts : Nat)
    {nk : String} (hone : currentRows st nk = [cur]) :
    currentRows (expire st cur ts) nk = [] := by
  have hkey : ∀ r : DimensionRow,
      ((if r.surrogate_key = cur.surrogate_key then expireRow r ts else r) :
        DimensionRow).natural_key = r.natural_key := by
    intro r
    by_cases h : r.surrogate_key = cur.surrogate_key <;> simp [expireRow, h]
  have h1 : keyRows (expire st cur ts) nk =
      (keyRows st nk).map fun r =>
        if r.surrogate_key = cur.surrogate_key then expireRow r ts else r :=
    keyRows_mapRows st.rows st.nextKey _ hkey nk
  unfold currentRows
  rw [h1, List.filter_eq_nil_iff]
  intro a ha
  rcases List.mem_map.mp ha with ⟨s, hs, hsf⟩
  subst hsf
  by_cases h : s.surrogate_key = cur.surrogate_key
  · rw [if_pos h]
    simp [expireRow]
  · rw [if_neg h]
    intro hcurr
    have : s ∈ currentRows st nk := by
      unfold currentRows
      exact List.mem_filter.mpr ⟨hs, hcurr⟩
    rw [hone] at this
    simp only [List.mem_singleton] at this
    subst this
    exact h rfl

end SCD2

namespace SCD2

theorem atMostOne_of_exactlyOne {st : Store} (hone : exactlyOneCurrent st) :
    atMostOneCurrent st := by
  intro nk
  by_cases h : keyRows st nk = []
  · unfold currentRows
    rw [h, List.filter_nil]
    exact Nat.zero_le _
  · rw [hone nk h]

theorem currentRows_eq_singleton {st : Store} {nk : String} {cur : DimensionRow}
    (hone : (currentRows st nk).length = 1) (hmem : cur ∈ currentRows st nk) :
    currentRows st nk = [cur] := by
  rcases hcr : currentRows st nk with _ | ⟨a, tl⟩
  · rw [hcr] at hmem; simp at hmem
  · rcases tl with _ | ⟨b, l⟩
    · rw [hcr] at hmem
      simp only [List.mem_singleton] at hmem
      rw [hmem]
    · rw [hcr] at hone; simp at hone

theorem mem_currentRows {st : Store} {nk : String} {r : DimensionRow} :
    r ∈ currentRows st nk ↔ r ∈ st.rows ∧ r.natural_key = nk ∧ r.is_current = true := by
  unfold currentRows
  rw [List.mem_filter, mem_keyRows]
  constructor
  · rintro ⟨⟨h1, h2⟩, h3⟩; exact ⟨h1, h2, h3⟩
  · rintro ⟨h1, h2, h3⟩; exact ⟨⟨h1, h2⟩, h3⟩

theorem getCurrent_singleton {st : Store} {nk : String} {cur : DimensionRow}
    (hone : exactlyOneCurrent st) (h : getCurrent st nk = some cur) :
    currentRows st nk = [cur] := by
  have hm := getCurrent_some_mem h
  have hne : keyRows st nk ≠ [] := by
    intro hnil
    have : cur ∈ keyRows st nk := mem_keyRows.mpr ⟨hm.1, hm.2.1⟩
    rw [hnil] at this
    simp at this
  exact getCurrent_some_currentRows (hone nk hne) h

theorem exactlyOne_insertNew {st : Store} {rec : SourceRecord} {ts : Nat}
    (hone : exactlyOneCurrent st)
    (h : getCurrent st rec.natural_key = none) :
    exactlyOneCurrent (insertNew st rec ts) := by
  intro nk hne
  rw [currentRows_insertNew]
  by_cases hk : (rec.natural_key == nk) = true
  · rw [if_pos hk]
    have hknk : rec.natural_key = nk := beq_iff_eq.mp hk
    have hcr : currentRows st nk = [] := by
      rw [← hknk]
      exact getCurrent_none_currentRows h
    rw [hcr, List.nil_append, List.length_singleton]
  · rw [if_neg hk, List.append_nil]
    apply hone
    intro hnil
    apply hne
    rw [keyRows_insertNew, if_neg hk, List.append_nil, hnil]

end SCD2

namespace SCD2

theorem exactlyOne_applyType1 {st : Store} {cur : DimensionRow}
    {rec : SourceRecord} {t1 : List String} {ts : Nat}
    (hone : exactlyOneCurrent st) :
    exactlyOneCurrent (applyType1 st cur rec t1 ts) := by
  intro nk hne
  rw [currentRows_applyType1, List.length_map]
  apply hone
  intro hnil
  apply hne
  rw [keyRows_applyType1_eq, hnil, List.map_nil]

theorem exactlyOne_applyType2 {st : Store} {cur : DimensionRow}
    {rec : SourceRecord} {ts : Nat} (hwf : WF st) (hone : exactlyOneCurrent st)
    (h : getCurrent st rec.natural_key = some cur) :
    exactlyOneCurrent (applyType2 st cur rec ts) := by
  have hm := getCurrent_some_mem h
  intro nk hne
  unfold applyType2
  rw [currentRows_insertNew]
  by_cases hk : (rec.natural_key == nk) = true
  · rw [if_pos hk]
    have hknk : rec.natural_key = nk := beq_iff_eq.mp hk
    have hsingle : currentRows st nk = [cur] := by
      rw [← hknk]
      exact getCurrent_singleton hone h
    rw [currentRows_expire_nil ts hsingle, List.nil_append, List.length_singleton]
  · rw [if_neg hk]
    have hknk : rec.natural_key ≠ nk := fun he => hk (beq_iff_eq.mpr he)
    have hcurnk : cur.natural_key ≠ nk := by rw [hm.2.1]; exact hknk
    have hkr : keyRows (expire st cur ts) nk = keyRows st nk :=
      keyRows_expire_ne hwf hm.1 ts hcurnk
    have hcr : currentRows (expire st cur ts) nk = currentRows st nk := by
      unfold currentRows
      rw [hkr]
    rw [List.append_nil, hcr]
    apply hone
    intro hnil
    apply hne
    unfold applyType2
    rw [keyRows_insertNew, if_neg hk, List.append_nil, hkr, hnil]

theorem atMostOne_expire {st : Store} (hwf : WF st) (hone : exactlyOneCurrent st)
    {cur : DimensionRow} (hcur : cur ∈ st.rows) (hc : cur.is_current = true)
    (ts : Nat) : atMostOneCurrent (expire st cur ts) := by
  intro nk
  by_cases hk : cur.natural_key = nk
  · have hmem : cur ∈ currentRows st nk := mem_currentRows.mpr ⟨hcur, hk, hc⟩
    have hne : keyRows st nk ≠ [] := by
      intro hnil
      have : cur ∈ keyRows st nk := mem_keyRows.mpr ⟨hcur, hk⟩
      rw [hnil] at this
      simp at this
    have hsingle : currentRows st nk = [cur] :=
      currentRows_eq_singleton (hone nk hne) hmem
    rw [currentRows_expire_nil ts hsingle]
    exact Nat.zero_le _
  · have hkr : keyRows (expire st cur ts) nk = keyRows st nk :=
      keyRows_expire_ne hwf hcur ts hk
    have hcr : currentRows (expire st cur ts) nk = currentRows st nk := by
      unfold currentRows
      rw [hkr]
    rw [hcr]
    exact atMostOne_of_exactlyOne hone nk

theorem reconcileRecord_none {st : Store} {rec : SourceRecord}
    (t2 t1 : List String) (ts : Nat)
    (hg : getCurrent st rec.natural_key = none) :
    reconcileRecord t2 t1 ts st rec = (insertNew st rec ts, .NewEntity) := by
  unfold reconcileRecord
  rw [hg]

theorem reconcileRecord_some {st : Store} {rec : SourceRecord}
    {cur : DimensionRow} (t2 t1 : List String) (ts : Nat)
    (hg : getCurrent st rec.natural_key = some cur) :
    reconcileRecord t2 t1 ts st rec =
      match classify (some cur) rec t2 t1 with
      | .Type2Change => (applyType2 st cur rec ts, .Type2Change)
      | .Type1Change => (applyType1 st cur rec t1 ts, .Type1Change)
      | _ => (st, .Unchanged) := by
  unfold reconcileRecord
  rw [hg]

theorem WF_reconcileRecord {st : Store} (hwf : WF st) (t2 t1 : List String)
    (ts : Nat) (rec : SourceRecord) :
    WF (reconcileRecord t2 t1 ts st rec).1 := by
  rcases hg : getCurrent st rec.natural_key with _ | cur
  · rw [reconcileRecord_none t2 t1 ts hg]
    exact WF_insertNew hwf rec ts
  · rw [reconcileRecord_some t2 t1 ts hg]
    rcases hc : classify (some cur) rec t2 t1 with _ | _ | _ | _
    · exact hwf
    · exact hwf
    · exact WF_applyType1 hwf cur rec t1 ts
    · exact WF_applyType2 hwf cur rec ts

theorem exactlyOne_reconcileRecord {st : Store} (hwf : WF st)
    (hone : exactlyOneCurrent st) (t2 t1 : List String) (ts : Nat)
    (rec : SourceRecord) :
    exactlyOneCurrent (reconcileRecord t2 t1 ts st rec).1 := by
  rcases hg : getCurrent st rec.natural_key with _ | cur
  · rw [reconcileRecord_none t2 t1 ts hg]
    exact exactlyOne_insertNew hone hg
  · rw [reconcileRecord_some t2 t1 ts hg]
    rcases hc : classify (some cur) rec t2 t1 with _ | _ | _ | _
    · exact hone
    · exact hone
    · exact exactlyOne_applyType1 hone
    · exact exactlyOne_applyType2 hwf hone hg

theorem runBatch_preserves (t2 t1 : List String) (ts : Nat) :
    ∀ (batch : List SourceRecord) (st : Store), WF st → exactlyOneCurrent st →
      WF (runBatch t2 t1 ts st batch) ∧
        exactlyOneCurrent (runBatch t2 t1 ts st batch) := by
  intro batch
  induction batch with
  | nil => intro st hwf hone; exact ⟨hwf, hone⟩
  | cons rec rest ih =>
    intro st hwf hone
    exact ih (reconcileRecord t2 t1 ts st rec).1
      (WF_reconcileRecord hwf t2 t1 ts rec)
      (exactlyOne_reconcileRecord hwf hone t2 t1 ts rec)

end SCD2

namespace SCD2

theorem any_fieldChanged_true_iff (a b : Attrs) (l : List String) :
    (l.any fun f => fieldChanged a b f) = true ↔
      ∃ f ∈ l, canon (a f) ≠ canon (b f) := by
  rw [List.any_eq_true]
  constructor
  · rintro ⟨f, hf, hc⟩
    exact ⟨f, hf, of_decide_eq_true hc⟩
  · rintro ⟨f, hf, hc⟩
    exact ⟨f, hf, decide_eq_true hc⟩

theorem any_fieldChanged_false_iff (a b : Attrs) (l : List String) :
    (l.any fun f => fieldChanged a b f) = false ↔
      ∀ f ∈ l, canon (a f) = canon (b f) := by
  rw [← Bool.not_eq_true, List.any_eq_true]
  constructor
  · intro h f hf
    by_contra hne
    exact h ⟨f, hf, decide_eq_true hne⟩
  · rintro h ⟨f, hf, hc⟩
    exact of_decide_eq_true hc (h f hf)

theorem reconcileRecord_type2 {st : Store} {rec : SourceRecord}
    {cur : DimensionRow} {t2 t1 : List String} {ts : Nat}
    (hg : getCurrent st rec.natural_key = some cur)
    (hc : classify (some cur) rec t2 t1 = .Type2Change) :
    reconcileRecord t2 t1 ts st rec = (applyType2 st cur rec ts, .Type2Change) := by
  rw [reconcileRecord_some t2 t1 ts hg, hc]

theorem reconcileRecord_type1 {st : Store} {rec : SourceRecord}
    {cur : DimensionRow} {t2 t1 : List String} {ts : Nat}
    (hg : getCurrent st rec.natural_key = some cur)
    (hc : classify (some cur) rec t2 t1 = .Type1Change) :
    reconcileRecord t2 t1 ts st rec = (applyType1 st cur rec t1 ts, .Type1Change) := by
  rw [reconcileRecord_some t2 t1 ts hg, hc]

theorem reconcileRecord_unchanged {st : Store} {rec : SourceRecord}
    {cur : DimensionRow} {t2 t1 : List String} {ts : Nat}
    (hg : getCurrent st rec.natural_key = some cur)
    (hc : classify (some cur) rec t2 t1 = .Unchanged) :
    reconcileRecord t2 t1 ts st rec = (st, .Unchanged) := by
  rw [reconcileRecord_some t2 t1 ts hg, hc]

theorem currentRows_insertNew_self {st : Store} {rec : SourceRecord} {ts : Nat}
    (h : getCurrent st rec.natural_key = none) :
    currentRows (insertNew st rec ts) rec.natural_key = [newRow st rec ts] := by
  rw [currentRows_insertNew, if_pos (beq_iff_eq.mpr rfl),
    getCurrent_none_currentRows h, List.nil_append]

theorem currentRows_applyType2_self {st : Store} {cur : DimensionRow}
    {rec : SourceRecord} {ts : Nat} (hone : exactlyOneCurrent st)
    (hg : getCurrent st rec.natural_key = some cur) :
    currentRows (applyType2 st cur rec ts) rec.natural_key =
      [newRow (expire st cur ts) rec ts] := by
  unfold applyType2
  rw [currentRows_insertNew, if_pos (beq_iff_eq.mpr rfl),
    currentRows_expire_nil ts (getCurrent_singleton hone hg), List.nil_append]

theorem currentRows_applyType1_self {st : Store} {cur : DimensionRow}
    {rec : SourceRecord} {t1 : List String} {ts : Nat} {nk : String}
    (hone : currentRows st nk = [cur]) :
    currentRows (applyType1 st cur rec t1 ts) nk =
      [{ cur with attrs := type1Merge cur.attrs rec.attrs t1, updated_at := ts }] := by
  rw [currentRows_applyType1, hone, List.map_cons, List.map_nil, if_pos rfl]

end SCD2

namespace SCD2

theorem classify_some_eq (c : DimensionRow) (rec : SourceRecord)
    (t2 t1 : List String) :
    classify (some c) rec t2 t1 =
      if (t2.any fun f => fieldChanged c.attrs rec.attrs f) = true then
        ChangeKind.Type2Change
      else if (t1.any fun f => fieldChanged c.attrs rec.attrs f) = true then
        ChangeKind.Type1Change
      else ChangeKind.Unchanged := rfl

theorem classify_some_ne_new (c : DimensionRow) (rec : SourceRecord)
    (t2 t1 : List String) : classify (some c) rec t2 t1 ≠ .NewEntity := by
  rw [classify_some_eq]
  by_cases h2 : (t2.any fun f => fieldChanged c.attrs rec.attrs f) = true
  · rw [if_pos h2]; simp
  · rw [if_neg h2]
    by_cases h1 : (t1.any fun f => fieldChanged c.attrs rec.attrs f) = true
    · rw [if_pos h1]; simp
    · rw [if_neg h1]; simp

theorem classify_type2_iff (c : DimensionRow) (rec : SourceRecord)
    (t2 t1 : List String) :
    classify (some c) rec t2 t1 = .Type2Change ↔
      (t2.any fun f => fieldChanged c.attrs rec.attrs f) = true := by
  rw [classify_some_eq]
  by_cases h2 : (t2.any fun f => fieldChanged c.attrs rec.attrs f) = true
  · rw [if_pos h2]; simp [h2]
  · rw [if_neg h2]
    by_cases h1 : (t1.any fun f => fieldChanged c.attrs rec.attrs f) = true
    · rw [if_pos h1]; simp [h2]
    · rw [if_neg h1]; simp [h2]

theorem classify_type1_iff (c : DimensionRow) (rec : SourceRecord)
    (t2 t1 : List String) :
    classify (some c) rec t2 t1 = .Type1Change ↔
      ((t2.any fun f => fieldChanged c.attrs rec.attrs f) = false ∧
        (t1.any fun f => fieldChanged c.attrs rec.attrs f) = true) := by
  rw [classify_some_eq]
  by_cases h2 : (t2.any fun f => fieldChanged c.attrs rec.attrs f) = true
  · rw [if_pos h2]; simp [h2]
  · rw [if_neg h2]
    by_cases h1 : (t1.any fun f => fieldChanged c.attrs rec.attrs f) = true
    · rw [if_pos h1]; simp [Bool.eq_false_iff, h2, h1]
    · rw [if_neg h1]; simp [h1]

theorem classify_unchanged_iff (c : DimensionRow) (rec : SourceRecord)
    (t2 t1 : List String) :
    classify (some c) rec t2 t1 = .Unchanged ↔
      ((t2.any fun f => fieldChanged c.attrs rec.attrs f) = false ∧
        (t1.any fun f => fieldChanged c.attrs rec.attrs f) = false) := by
  rw [classify_some_eq]
  by_cases h2 : (t2.any fun f => fieldChanged c.attrs rec.attrs f) = true
  · rw [if_pos h2]; simp [h2]
  · rw [if_neg h2]
    by_cases h1 : (t1.any fun f => fieldChanged c.attrs rec.attrs f) = true
    · rw [if_pos h1]; simp [h1]
    · rw [if_neg h1]
      simp [Bool.eq_false_iff, h2, h1]

theorem getCurrent_insertNew_self {st : Store} {rec : SourceRecord} {ts : Nat}
    (h : getCurrent st rec.natural_key = none) :
    getCurrent (insertNew st rec ts) rec.natural_key = some (newRow st rec ts) := by
  rw [getCurrent_eq_head?, currentRows_insertNew_self h, List.head?_cons]

theorem getCurrent_applyType2_self {st : Store} {cur : DimensionRow}
    {rec : SourceRecord} {ts : Nat} (hone : exactlyOneCurrent st)
    (hg : getCurrent st rec.natural_key = some cur) :
    getCurrent (applyType2 st cur rec ts) rec.natural_key =
      some (newRow (expire st cur ts) rec ts) := by
  rw [getCurrent_eq_head?, currentRows_applyType2_self hone hg, List.head?_cons]

theorem getCurrent_applyType1_self {st : Store} {cur : DimensionRow}
    {rec : SourceRecord} {t1 : List String} {ts : Nat}
    (hone : currentRows st rec.natural_key = [cur]) :
    getCurrent (applyType1 st cur rec t1 ts) rec.natural_key =
      some { cur with attrs := type1Merge cur.attrs rec.attrs t1, updated_at := ts } := by
  rw [getCurrent_eq_head?, currentRows_applyType1_self hone, List.head?_cons]

end SCD2

namespace SCD2

theorem keyRows_reconcile_ne {st : Store} (hwf : WF st) (t2 t1 : List String)
    (ts : Nat) (rec : SourceRecord) {nk : String}
    (hnk : rec.natural_key ≠ nk) :
    keyRows ((reconcileRecord t2 t1 ts st rec).1) nk = keyRows st nk := by
  have hbeq : (rec.natural_key == nk) ≠ true := fun h => hnk (beq_iff_eq.mp h)
  rcases hg : getCurrent st rec.natural_key with _ | cur
  · rw [reconcileRecord_none t2 t1 ts hg]
    show keyRows (insertNew st rec ts) nk = keyRows st nk
    rw [keyRows_insertNew, if_neg hbeq, List.append_nil]
  · have hm := getCurrent_some_mem hg
    have hcnk : cur.natural_key ≠ nk := by rw [hm.2.1]; exact hnk
    rcases hc : classify (some cur) rec t2 t1 with _ | _ | _ | _
    · exact absurd hc (classify_some_ne_new cur rec t2 t1)
    · rw [reconcileRecord_unchanged hg hc]
    · rw [reconcileRecord_type1 hg hc]
      exact keyRows_applyType1_ne hwf hm.1 rec t1 ts hcnk
    · rw [reconcileRecord_type2 hg hc]
      show keyRows (insertNew (expire st cur ts) rec ts) nk = keyRows st nk
      rw [keyRows_insertNew, if_neg hbeq, List.append_nil]
      exact keyRows_expire_ne hwf hm.1 ts hcnk

theorem getCurrent_reconcile_ne {st : Store} (hwf : WF st) (t2 t1 : List String)
    (ts : Nat) (rec : SourceRecord) {nk : String}
    (hnk : rec.natural_key ≠ nk) :
    getCurrent ((reconcileRecord t2 t1 ts st rec).1) nk = getCurrent st nk := by
  rw [getCurrent_eq_head?, getCurrent_eq_head?]
  unfold currentRows
  rw [keyRows_reconcile_ne hwf t2 t1 ts rec hnk]

theorem getCurrent_runBatch_ne (t2 t1 : List String) (ts : Nat) {nk : String} :
    ∀ (batch : List SourceRecord) (st : Store), WF st →
      (∀ r ∈ batch, r.natural_key ≠ nk) →
      getCurrent (runBatch t2 t1 ts st batch) nk = getCurrent st nk := by
  intro batch
  induction batch with
  | nil => intro st _ _; rfl
  | cons rec rest ih =>
    intro st hwf hne
    have hstep : runBatch t2 t1 ts st (rec :: rest) =
        runBatch t2 t1 ts (reconcileRecord t2 t1 ts st rec).1 rest := rfl
    rw [hstep, ih _ (WF_reconcileRecord hwf t2 t1 ts rec)
      (fun r hr => hne r (List.mem_cons_of_mem rec hr))]
    exact getCurrent_reconcile_ne hwf t2 t1 ts rec (hne rec (List.mem_cons_self rec rest))

theorem reconcile_agree {st : Store} (hwf : WF st) (hone : exactlyOneCurrent st)
    (t2 t1 : List String) (ts : Nat) (rec : SourceRecord) :
    ∃ r, getCurrent ((reconcileRecord t2 t1 ts st rec).1) rec.natural_key = some r ∧
      (∀ f ∈ t2, canon (r.attrs f) = canon (rec.attrs f)) ∧
      (∀ f ∈ t1, canon (r.attrs f) = canon (rec.attrs f)) := by
  rcases hg : getCurrent st rec.natural_key with _ | cur
  · rw [reconcileRecord_none t2 t1 ts hg]
    exact ⟨newRow st rec ts, getCurrent_insertNew_self hg,
      fun f _ => rfl, fun f _ => rfl⟩
  · rcases hc : classify (some cur) rec t2 t1 with _ | _ | _ | _
    · exact absurd hc (classify_some_ne_new cur rec t2 t1)
    · rw [reconcileRecord_unchanged hg hc]
      have hiff := (classify_unchanged_iff cur rec t2 t1).mp hc
      exact ⟨cur, hg,
        (any_fieldChanged_false_iff cur.attrs rec.attrs t2).mp hiff.1,
        (any_fieldChanged_false_iff cur.attrs rec.attrs t1).mp hiff.2⟩
    · rw [reconcileRecord_type1 hg hc]
      have hiff := (classify_type1_iff cur rec t2 t1).mp hc
      have h2 := (any_fieldChanged_false_iff cur.attrs rec.attrs t2).mp hiff.1
      have hsing := getCurrent_singleton hone hg
      refine ⟨_, getCurrent_applyType1_self hsing, ?_, ?_⟩
      · intro f hf
        show canon (type1Merge cur.attrs rec.attrs t1 f) = canon (rec.attrs f)
        unfold type1Merge
        by_cases hft1 : f ∈ t1
        · rw [if_pos hft1]
        · rw [if_neg hft1]
          exact h2 f hf
      · intro f hf
        show canon (type1Merge cur.attrs rec.attrs t1 f) = canon (rec.attrs f)
        unfold type1Merge
        rw [if_pos hf]
    · rw [reconcileRecord_type2 hg hc]
      exact ⟨newRow (expire st cur ts) rec ts, getCurrent_applyType2_self hone hg,
        fun f _ => rfl, fun f _ => rfl⟩

theorem runBatch_agree (t2 t1 : List String) (ts : Nat) :
    ∀ (batch : List SourceRecord) (st : Store), WF st → exactlyOneCurrent st →
      (batch.map fun r => r.natural_key).Nodup →
      ∀ rec ∈ batch, ∃ r,
        getCurrent (runBatch t2 t1 ts st batch) rec.natural_key = some r ∧
        (∀ f ∈ t2, canon (r.attrs f) = canon (rec.attrs f)) ∧
        (∀ f ∈ t1, canon (r.attrs f) = canon (rec.attrs f)) := by
  intro batch
  induction batch with
  | nil => intro st _ _ _ rec hrec; simp at hrec
  | cons rec0 rest ih =>
    intro st hwf hone hnod rec hrec
    have hstep : runBatch t2 t1 ts st (rec0 :: rest) =
        runBatch t2 t1 ts (reconcileRecord t2 t1 ts st rec0).1 rest := rfl
    rw [List.map_cons, List.nodup_cons] at hnod
    have hwf1 := WF_reconcileRecord hwf t2 t1 ts rec0
    rcases List.mem_cons.mp hrec with hrec0 | hrest
    · subst hrec0
      rcases reconcile_agree hwf hone t2 t1 ts rec with ⟨r, hr, h2, h1⟩
      refine ⟨r, ?_, h2, h1⟩
      rw [hstep]
      rw [getCurrent_runBatch_ne t2 t1 ts rest _ hwf1 ?_]
      · exact hr
      · intro s hs he
        exact hnod.1 (he ▸ List.mem_map_of_mem (fun r => r.natural_key) hs)
    · rw [hstep]
      exact ih _ hwf1 (exactlyOne_reconcileRecord hwf hone t2 t1 ts rec0)
        hnod.2 rec hrest

theorem runBatchK_unchanged (t2 t1 : List String) (ts : Nat) :
    ∀ (batch : List SourceRecord) (st : Store),
      (∀ rec ∈ batch, classify (getCurrent st rec.natural_key) rec t2 t1 = .Unchanged) →
      runBatchK t2 t1 ts st batch = (st, batch.map fun _ => ChangeKind.Unchanged) := by
  intro batch
  induction batch with
  | nil => intro st _; rfl
  | cons rec rest ih =>
    intro st hall
    have hrec := hall rec (List.mem_cons_self rec rest)
    rcases hg : getCurrent st rec.natural_key with _ | cur
    · rw [hg] at hrec
      exact absurd hrec (by simp [classify])
    · rw [hg] at hrec
      have hstep : reconcileRecord t2 t1 ts st rec = (st, .Unchanged) :=
        reconcileRecord_unchanged hg hrec
      show ((runBatchK t2 t1 ts (reconcileRecord t2 t1 ts st rec).1 rest).1,
          (reconcileRecord t2 t1 ts st rec).2 ::
            (runBatchK t2 t1 ts (reconcileRecord t2 t1 ts st rec).1 rest).2) = _
      rw [hstep]
      rw [ih st fun r hr => hall r (List.mem_cons_of_mem rec hr)]
      rfl

end SCD2

namespace SCD2

theorem chainOk_nil : chainOk [] := by
  refine ⟨List.chain'_nil, ?_, ?_⟩ <;> simp

theorem chainOk_singleton {r : DimensionRow} (hc : r.is_current = true)
    (he : r.effective_end = none) : chainOk [r] := by
  refine ⟨List.chain'_singleton r, ?_, ?_⟩
  · simp [List.dropLast]
  · intro s hs
    simp only [List.getLast?_singleton, Option.some.injEq] at hs
    subst hs
    exact ⟨hc, he⟩

theorem chainOk_tail {a : DimensionRow} {l : List DimensionRow}
    (h : chainOk (a :: l)) : chainOk l := by
  rcases l with _ | ⟨b, m⟩
  · exact chainOk_nil
  · refine ⟨(List.chain'_cons.mp h.1).2, ?_, ?_⟩
    · intro r hr
      apply h.2.1
      rw [List.dropLast_cons₂]
      exact List.mem_cons_of_mem a hr
    · intro r hr
      apply h.2.2
      rw [List.getLast?_cons_cons]
      exact hr

theorem chain_pairwise {l : List DimensionRow} (h : List.Chain' rowLink l) :
    List.Pairwise (fun a b => a.effective_start < b.effective_start ∧
      ∀ e, a.effective_end = some e → e ≤ b.effective_start) l := by
  induction l with
  | nil => exact List.Pairwise.nil
  | cons a l ih =>
    rcases l with _ | ⟨b, m⟩
    · exact List.pairwise_singleton _ a
    · have hab : rowLink a b := (List.chain'_cons.mp h).1
      have hp := ih (List.chain'_cons.mp h).2
      have hRab : a.effective_start < b.effective_start ∧
          ∀ e, a.effective_end = some e → e ≤ b.effective_start := by
        refine ⟨hab.2, ?_⟩
        intro e he
        rw [hab.1] at he
        exact le_of_eq (Option.some.inj he).symm
      refine List.Pairwise.cons ?_ hp
      intro x hx
      rcases List.mem_cons.mp hx with hxb | hxm
      · subst hxb; exact hRab
      · have hbx := (List.pairwise_cons.mp hp).1 x hxm
        refine ⟨lt_trans hRab.1 hbx.1, ?_⟩
        intro e he
        exact le_of_lt (lt_of_le_of_lt (hRab.2 e he) hbx.1)

theorem chainOk_closed_lt {l : List DimensionRow} (h : chainOk l) :
    ∀ r ∈ l, ∀ e, r.effective_end = some e → r.effective_start < e := by
  induction l with
  | nil => simp
  | cons a l ih =>
    intro r hr e he
    rcases List.mem_cons.mp hr with hra | hrl
    · subst hra
      rcases l with _ | ⟨b, m⟩
      · have := (h.2.2 r (by simp)).2
        rw [this] at he
        simp at he
      · have hab : rowLink r b := (List.chain'_cons.mp h.1).1
        rw [hab.1] at he
        rw [← Option.some.inj he]
        exact hab.2
    · exact ih (chainOk_tail h) r hrl e he

theorem chainOk_cover {l : List DimensionRow} (h : chainOk l) :
    ∀ t : Nat, (∃ r ∈ l, r.effective_start ≤ t) → ∃ r ∈ l, inInterval r t := by
  induction l with
  | nil => simp
  | cons a l ih =>
    intro t ht
    rcases l with _ | ⟨b, m⟩
    · rcases ht with ⟨r, hr, hrt⟩
      rw [List.mem_singleton] at hr
      subst hr
      refine ⟨r, by simp, hrt, ?_⟩
      intro e he
      rw [(h.2.2 r (by simp)).2] at he
      simp at he
    · have hab : rowLink a b := (List.chain'_cons.mp h.1).1
      by_cases htb : b.effective_start ≤ t
      · rcases ih (chainOk_tail h) t ⟨b, List.mem_cons_self b m, htb⟩ with ⟨r, hr, hint⟩
        exact ⟨r, List.mem_cons_of_mem a hr, hint⟩
      · push_neg at htb
        have hat : a.effective_start ≤ t := by
          rcases ht with ⟨r, hr, hrt⟩
          rcases List.mem_cons.mp hr with hra | hrl
          · subst hra; exact hrt
          · exfalso
            have hp := chain_pairwise (List.chain'_cons.mp h.1).2
            have hble : b.effective_start ≤ r.effective_start := by
              rcases List.mem_cons.mp hrl with hrb | hrm
              · subst hrb; exact le_refl _
              · exact le_of_lt ((List.pairwise_cons.mp hp).1 r hrm).1
            exact absurd (le_trans hble hrt) (not_le.mpr htb)
        refine ⟨a, List.mem_cons_self a _, hat, ?_⟩
        intro e he
        rw [hab.1] at he
        rw [← Option.some.inj he]
        exact htb

theorem chainOk_disjoint {l : List DimensionRow} (h : chainOk l) :
    ∀ a ∈ l, ∀ b ∈ l, a ≠ b → a.effective_end ≠ none → b.effective_end ≠ none →
      ∀ t : Nat, ¬(inInterval a t ∧ inInterval b t) := by
  have hp := chain_pairwise h.1
  have hdisj : List.Pairwise
      (fun a b : DimensionRow => a.effective_end ≠ none → b.effective_end ≠ none →
        ∀ t : Nat, ¬(inInterval a t ∧ inInterval b t)) l := by
    refine hp.imp ?_
    rintro a b ⟨hlt, hle⟩ hea _ t ⟨hta, htb⟩
    rcases ha : a.effective_end with _ | e
    · exact hea ha
    · exact absurd (lt_of_lt_of_le (hta.2 e ha) (le_trans (hle e ha) htb.1))
        (lt_irrefl t)
  intro a ha b hb hne hca hcb t
  have hsymm : Symmetric (fun a b : DimensionRow => a.effective_end ≠ none →
      b.effective_end ≠ none → ∀ t : Nat, ¬(inInterval a t ∧ inInterval b t)) := by
    intro x y hxy hcy hcx s hs
    exact hxy hcx hcy s ⟨hs.2, hs.1⟩
  exact hdisj.forall hsymm ha hb hne hca hcb t

end SCD2

namespace SCD2

theorem chainOk_map {l : List DimensionRow} {g : DimensionRow → DimensionRow}
    (hs : ∀ r, (g r).effective_start = r.effective_start)
    (he : ∀ r, (g r).effective_end = r.effective_end)
    (hc : ∀ r, (g r).is_current = r.is_current)
    (h : chainOk l) : chainOk (l.map g) := by
  refine ⟨?_, ?_, ?_⟩
  · rw [List.chain'_map]
    refine h.1.imp ?_
    intro a b hab
    exact ⟨by rw [he, hs, hab.1], by rw [hs, hs]; exact hab.2⟩
  · intro r hr
    rw [← List.map_dropLast] at hr
    rcases List.mem_map.mp hr with ⟨s, hsmem, hsg⟩
    subst hsg
    rw [hc]
    exact h.2.1 s hsmem
  · intro r hr
    rw [List.getLast?_map, Option.map_eq_some'] at hr
    rcases hr with ⟨s, hsl, hsg⟩
    subst hsg
    have hfacts := h.2.2 s hsl
    exact ⟨by rw [hc]; exact hfacts.1, by rw [he]; exact hfacts.2⟩

theorem chain_current_eq_last {l : List DimensionRow} {cur : DimensionRow}
    (h : chainOk l) (hmem : cur ∈ l) (hcur : cur.is_current = true) :
    l.getLast? = some cur := by
  have hne : l ≠ [] := List.ne_nil_of_mem hmem
  have hdecomp := List.dropLast_concat_getLast hne
  rcases (List.mem_append.mp (hdecomp ▸ hmem)) with hd | hl
  · exact absurd (h.2.1 cur hd) (by rw [hcur]; simp)
  · rw [List.mem_singleton] at hl
    rw [hl]
    exact List.getLast?_eq_getLast l hne

theorem keyRows_nil_of_chain_none {st : Store} {nk : String}
    (h : chainOk (keyRows st nk)) (hg : getCurrent st nk = none) :
    keyRows st nk = [] := by
  by_contra hne
  have hcr := getCurrent_none_currentRows hg
  rcases hl : (keyRows st nk).getLast? with _ | r
  · rw [List.getLast?_eq_none_iff] at hl
    exact hne hl
  · have hfacts := h.2.2 r hl
    have hrmem : r ∈ keyRows st nk := List.mem_of_getLast?_eq_some hl
    have : r ∈ currentRows st nk := by
      unfold currentRows
      exact List.mem_filter.mpr ⟨hrmem, hfacts.1⟩
    rw [hcr] at this
    simp at this

theorem keyRows_sk_nodup {st : Store} (hwf : WF st) (nk : String) :
    ((keyRows st nk).map fun r => r.surrogate_key).Nodup :=
  hwf.2.sublist (List.Sublist.map _ (List.filter_sublist _))

theorem keyRows_applyType2_self {st : Store} {cur : DimensionRow}
    {rec : SourceRecord} {ts : Nat} (hwf : WF st)
    {l : List DimensionRow}
    (hdecomp : keyRows st rec.natural_key = l ++ [cur]) :
    keyRows (applyType2 st cur rec ts) rec.natural_key =
      (l ++ [expireRow cur ts]) ++ [newRow (expire st cur ts) rec ts] := by
  have hkey : ∀ r : DimensionRow,
      ((if r.surrogate_key = cur.surrogate_key then expireRow r ts else r) :
        DimensionRow).natural_key = r.natural_key := by
    intro r
    by_cases h : r.surrogate_key = cur.surrogate_key <;> simp [expireRow, h]
  have hmap : keyRows (expire st cur ts) rec.natural_key =
      (keyRows st rec.natural_key).map fun r =>
        if r.surrogate_key = cur.surrogate_key then expireRow r ts else r :=
    keyRows_mapRows st.rows st.nextKey _ hkey rec.natural_key
  have hnod := keyRows_sk_nodup hwf rec.natural_key
  rw [hdecomp] at hnod
  have hlne : ∀ r ∈ l, r.surrogate_key ≠ cur.surrogate_key := by
    intro r hr he
    rw [List.map_append, List.nodup_append] at hnod
    exact hnod.2.2
      (he ▸ List.mem_map_of_mem (fun r : DimensionRow => r.surrogate_key) hr)
      (by simp)
  unfold applyType2
  rw [keyRows_insertNew, if_pos (beq_iff_eq.mpr rfl), hmap, hdecomp,
    List.map_append]
  congr 2
  · apply map_eq_self
    intro r hr
    rw [if_neg (hlne r hr)]
  · rw [List.map_singleton, if_pos rfl]

end SCD2

namespace SCD2

theorem chainOk_expire_snoc {l : List DimensionRow} {cur new : DimensionRow}
    {ts : Nat} (h : chainOk (l ++ [cur]))
    (hts : cur.effective_start < ts)
    (hns : new.effective_start = ts)
    (hnend : new.effective_end = none)
    (hnc : new.is_current = true) :
    chainOk ((l ++ [expireRow cur ts]) ++ [new]) := by
  have hchain := h.1
  rw [List.chain'_append] at hchain
  refine ⟨?_, ?_, ?_⟩
  · rw [List.chain'_append]
    refine ⟨?_, List.chain'_singleton _, ?_⟩
    · rw [List.chain'_append]
      refine ⟨hchain.1, List.chain'_singleton _, ?_⟩
      intro x hx y hy
      simp only [List.head?_cons, Option.mem_def, Option.some.injEq] at hy
      subst hy
      have hlink := hchain.2.2 x hx cur (by simp)
      exact ⟨hlink.1, hlink.2⟩
    · intro x hx y hy
      rw [List.getLast?_concat, Option.mem_def, Option.some.injEq] at hx
      simp only [List.head?_cons, Option.mem_def, Option.some.injEq] at hy
      subst hx
      subst hy
      constructor
      · show some ts = some new.effective_start
        rw [hns]
      · show cur.effective_start < new.effective_start
        rw [hns]
        exact hts
  · intro r hr
    rw [List.dropLast_concat] at hr
    rcases List.mem_append.mp hr with hrl | hre
    · apply h.2.1
      rw [List.dropLast_concat]
      exact hrl
    · rw [List.mem_singleton] at hre
      subst hre
      rfl
  · intro r hr
    rw [List.getLast?_concat, Option.some.injEq] at hr
    subst hr
    exact ⟨hnc, hnend⟩

theorem chain_reconcile {st : Store} (hwf : WF st) (hchain : storeChainOk st)
    (t2 t1 : List String) (ts : Nat) (rec : SourceRecord)
    (hts : ∀ r ∈ keyRows st rec.natural_key, r.effective_start < ts) :
    storeChainOk ((reconcileRecord t2 t1 ts st rec).1) := by
  intro nk
  by_cases hk : rec.natural_key = nk
  · subst hk
    rcases hg : getCurrent st rec.natural_key with _ | cur
    · rw [reconcileRecord_none t2 t1 ts hg]
      show chainOk (keyRows (insertNew st rec ts) rec.natural_key)
      rw [keyRows_insertNew, if_pos (beq_iff_eq.mpr rfl),
        keyRows_nil_of_chain_none (hchain _) hg, List.nil_append]
      exact chainOk_singleton rfl rfl
    · have hm := getCurrent_some_mem hg
      have hcmem : cur ∈ keyRows st rec.natural_key :=
        mem_keyRows.mpr ⟨hm.1, hm.2.1⟩
      rcases hc : classify (some cur) rec t2 t1 with _ | _ | _ | _
      · exact absurd hc (classify_some_ne_new cur rec t2 t1)
      · rw [reconcileRecord_unchanged hg hc]
        exact hchain _
      · rw [reconcileRecord_type1 hg hc]
        rw [keyRows_applyType1_eq]
        apply chainOk_map ?_ ?_ ?_ (hchain _)
        · intro r
          by_cases h : r.surrogate_key = cur.surrogate_key <;> simp [h]
        · intro r
          by_cases h : r.surrogate_key = cur.surrogate_key <;> simp [h]
        · intro r
          by_cases h : r.surrogate_key = cur.surrogate_key <;> simp [h]
      · rw [reconcileRecord_type2 hg hc]
        have hkne : keyRows st rec.natural_key ≠ [] := List.ne_nil_of_mem hcmem
        have hlast : (keyRows st rec.natural_key).getLast? = some cur :=
          chain_current_eq_last (hchain _) hcmem hm.2.2
        have hlast2 := List.getLast?_eq_getLast (keyRows st rec.natural_key) hkne
        rw [hlast2, Option.some.injEq] at hlast
        have hdecomp : keyRows st rec.natural_key =
            (keyRows st rec.natural_key).dropLast ++ [cur] := by
          conv_lhs => rw [← List.dropLast_concat_getLast hkne]
          rw [hlast]
        rw [keyRows_applyType2_self hwf hdecomp]
        apply chainOk_expire_snoc _ (hts cur hcmem) rfl rfl rfl
        rw [← hdecomp]
        exact hchain _
  · rw [keyRows_reconcile_ne hwf t2 t1 ts rec hk]
    exact hchain nk

theorem chain_runBatch (t2 t1 : List String) (ts : Nat) :
    ∀ (batch : List SourceRecord) (st : Store), WF st → storeChainOk st →
      (batch.map fun r => r.natural_key).Nodup →
      (∀ rec ∈ batch, ∀ r ∈ keyRows st rec.natural_key, r.effective_start < ts) →
      storeChainOk (runBatch t2 t1 ts st batch) := by
  intro batch
  induction batch with
  | nil => intro st _ hchain _ _; exact hchain
  | cons rec0 rest ih =>
    intro st hwf hchain hnod hts
    rw [List.map_cons, List.nodup_cons] at hnod
    have hstep : runBatch t2 t1 ts st (rec0 :: rest) =
        runBatch t2 t1 ts (reconcileRecord t2 t1 ts st rec0).1 rest := rfl
    rw [hstep]
    apply ih _ (WF_reconcileRecord hwf t2 t1 ts rec0)
      (chain_reconcile hwf hchain t2 t1 ts rec0
        (hts rec0 (List.mem_cons_self rec0 rest)))
      hnod.2
    intro rec hrec
    have hkne : rec0.natural_key ≠ rec.natural_key := by
      intro he
      exact hnod.1 (he ▸ List.mem_map_of_mem
        (fun r : SourceRecord => r.natural_key) hrec)
    rw [keyRows_reconcile_ne hwf t2 t1 ts rec0 hkne]
    exact hts rec (List.mem_cons_of_mem rec0 hrec)

end SCD2

namespace SCD2

theorem driverGo_char (t2 t1 : List String) (ts : Nat) :
    ∀ (items : List (SourceRecord × Outcome)), noStoreDown items →
      ∀ (st : Store) (acc : Summary),
      (driverGo t2 t1 ts st acc items).2.2 = false ∧
      (driverGo t2 t1 ts st acc items).1.processed =
        acc.processed + items.length ∧
      (driverGo t2 t1 ts st acc items).1.failed =
        acc.failed + (items.filter fun it => isRecordError it.2).length ∧
      (driverGo t2 t1 ts st acc items).1.errors =
        acc.errors ++
          ((items.filter fun it => isRecordError it.2).map
            fun it => it.1.natural_key) := by
  intro items
  induction items with
  | nil =>
    intro _ st acc
    refine ⟨rfl, rfl, rfl, ?_⟩
    show acc.errors = acc.errors ++ _
    simp
  | cons it rest ih =>
    intro hns st acc
    have hrest : noStoreDown rest :=
      fun x hx => hns x (List.mem_cons_of_mem it hx)
    rcases it with ⟨rec, o⟩
    rcases o with _ | _ | _ | _ | _
    · have h1 : driverGo t2 t1 ts st acc ((rec, Outcome.ok) :: rest) =
          driverGo t2 t1 ts (reconcileRecord t2 t1 ts st rec).1
            (tallyKind acc (reconcileRecord t2 t1 ts st rec).2) rest := rfl
      rcases ih hrest (reconcileRecord t2 t1 ts st rec).1
          (tallyKind acc (reconcileRecord t2 t1 ts st rec).2) with ⟨ha, hp, hf, he⟩
      rw [h1]
      refine ⟨ha, ?_, ?_, ?_⟩
      · rw [hp]; show acc.processed + 1 + rest.length = _; simp [List.length_cons]; omega
      · rw [hf]
        have : (((rec, Outcome.ok) :: rest).filter fun it => isRecordError it.2) =
            rest.filter fun it => isRecordError it.2 := by
          rw [List.filter_cons_of_neg]
          simp [isRecordError]
        rw [this]
        rfl
      · rw [he]
        have : (((rec, Outcome.ok) :: rest).filter fun it => isRecordError it.2) =
            rest.filter fun it => isRecordError it.2 := by
          rw [List.filter_cons_of_neg]
          simp [isRecordError]
        rw [this]
        rfl
    · have h1 : driverGo t2 t1 ts st acc ((rec, Outcome.malformed) :: rest) =
          driverGo t2 t1 ts st (recordFail acc rec) rest := rfl
      rcases ih hrest st (recordFail acc rec) with ⟨ha, hp, hf, he⟩
      rw [h1]
      have hfil : (((rec, Outcome.malformed) :: rest).filter
          fun it => isRecordError it.2) =
          (rec, Outcome.malformed) :: rest.filter fun it => isRecordError it.2 := by
        rw [List.filter_cons_of_pos]
        rfl
      refine ⟨ha, ?_, ?_, ?_⟩
      · rw [hp]; show (recordFail acc rec).processed + rest.length = _
        show acc.processed + 1 + rest.length = _
        simp [List.length_cons]; omega
      · rw [hf, hfil]
        show acc.failed + 1 + _ = _
        simp [List.length_cons]; omega
      · rw [he, hfil]
        show (acc.errors ++ [rec.natural_key]) ++ _ = _
        rw [List.append_assoc]
        rfl
    · have h1 : driverGo t2 t1 ts st acc ((rec, Outcome.staleOnce) :: rest) =
          driverGo t2 t1 ts (reconcileRecord t2 t1 ts st rec).1
            (tallyKind acc (reconcileRecord t2 t1 ts st rec).2) rest := rfl
      rcases ih hrest (reconcileRecord t2 t1 ts st rec).1
          (tallyKind acc (reconcileRecord t2 t1 ts st rec).2) with ⟨ha, hp, hf, he⟩
      rw [h1]
      refine ⟨ha, ?_, ?_, ?_⟩
      · rw [hp]; show acc.processed + 1 + rest.length = _; simp [List.length_cons]; omega
      · rw [hf]
        have : (((rec, Outcome.staleOnce) :: rest).filter
            fun it => isRecordError it.2) =
            rest.filter fun it => isRecordError it.2 := by
          rw [List.filter_cons_of_neg]
          simp [isRecordError]
        rw [this]
        rfl
      · rw [he]
        have : (((rec, Outcome.staleOnce) :: rest).filter
            fun it => isRecordError it.2) =
            rest.filter fun it => isRecordError it.2 := by
          rw [List.filter_cons_of_neg]
          simp [isRecordError]
        rw [this]
        rfl
    · have h1 : driverGo t2 t1 ts st acc ((rec, Outcome.staleTwice) :: rest) =
          driverGo t2 t1 ts st (recordFail acc rec) rest := rfl
      rcases ih hrest st (recordFail acc rec) with ⟨ha, hp, hf, he⟩
      rw [h1]
      have hfil : (((rec, Outcome.staleTwice) :: rest).filter
          fun it => isRecordError it.2) =
          (rec, Outcome.staleTwice) :: rest.filter fun it => isRecordError it.2 := by
        rw [List.filter_cons_of_pos]
        rfl
      refine ⟨ha, ?_, ?_, ?_⟩
      · rw [hp]; show acc.processed + 1 + rest.length = _
        simp [List.length_cons]; omega
      · rw [hf, hfil]
        show acc.failed + 1 + _ = _
        simp [List.length_cons]; omega
      · rw [he, hfil]
        show (acc.errors ++ [rec.natural_key]) ++ _ = _
        rw [List.append_assoc]
        rfl
    · exact absurd rfl (hns (rec, Outcome.storeDown) (List.mem_cons_self _ _))

theorem driverGo_append (t2 t1 : List String) (ts : Nat) :
    ∀ (pre : List (SourceRecord × Outcome)), noStoreDown pre →
      ∀ (rest : List (SourceRecord × Outcome)) (st : Store) (acc : Summary),
      driverGo t2 t1 ts st acc (pre ++ rest) =
        driverGo t2 t1 ts (driverGo t2 t1 ts st acc pre).2.1
          (driverGo t2 t1 ts st acc pre).1 rest := by
  intro pre
  induction pre with
  | nil => intro _ rest st acc; rfl
  | cons it pre' ih =>
    intro hns rest st acc
    have hpre' : noStoreDown pre' :=
      fun x hx => hns x (List.mem_cons_of_mem it hx)
    rcases it with ⟨rec, o⟩
    rcases o with _ | _ | _ | _ | _
    · exact ih hpre' rest (reconcileRecord t2 t1 ts st rec).1
        (tallyKind acc (reconcileRecord t2 t1 ts st rec).2)
    · exact ih hpre' rest st (recordFail acc rec)
    · exact ih hpre' rest (reconcileRecord t2 t1 ts st rec).1
        (tallyKind acc (reconcileRecord t2 t1 ts st rec).2)
    · exact ih hpre' rest st (recordFail acc rec)
    · exact absurd rfl (hns (rec, Outcome.storeDown) (List.mem_cons_self _ _))

end SCD2

namespace Frontend

theorem parseAux_header {l : String} (ls : List String) (cur : Option TestCase)
    (hh : isHeaderLine l = true) :
    parseAux (l :: ls) cur =
      cur.toList ++ parseAux ls (some { name := caseNameOf l, steps := [] }) := by
  simp only [parseAux]
  rw [if_pos hh]

theorem parseAux_step {l : String} (ls : List String) (cur : Option TestCase)
    (hh : isHeaderLine l = false) (hs : isStepLine l = true) :
    parseAux (l :: ls) cur =
      parseAux ls (cur.map fun c => { c with steps := c.steps ++ [l.trim] }) := by
  simp only [parseAux]
  rw [if_neg (by rw [hh]; simp), if_pos hs]

theorem parseAux_other {l : String} (ls : List String) (cur : Option TestCase)
    (hh : isHeaderLine l = false) (hs : isStepLine l = false) :
    parseAux (l :: ls) cur = parseAux ls cur := by
  simp only [parseAux]
  rw [if_neg (by rw [hh]; simp), if_neg (by rw [hs]; simp)]

theorem foldl_stepCase (ls : List String) :
    ∀ (cs : List TestCase) (cur : Option TestCase),
      (ls.foldl stepCase (cs, cur)).1 ++ (ls.foldl stepCase (cs, cur)).2.toList =
        cs ++ parseAux ls cur := by
  induction ls with
  | nil => intro cs cur; rfl
  | cons l ls ih =>
    intro cs cur
    by_cases hh : isHeaderLine l
    · have hstep : stepCase (cs, cur) l =
          (cs ++ cur.toList, some { name := caseNameOf l, steps := [] }) := by
        unfold stepCase
        rw [if_pos hh]
      rw [List.foldl_cons, hstep, ih, parseAux_header ls cur hh,
        List.append_assoc]
    · by_cases hs : isStepLine l
      · have hstep : stepCase (cs, cur) l =
            (cs, cur.map fun c => { c with steps := c.steps ++ [l.trim] }) := by
          unfold stepCase
          rw [if_neg (by rw [eq_false_of_ne_true hh]; simp), if_pos hs]
        rw [List.foldl_cons, hstep, ih,
          parseAux_step ls cur (eq_false_of_ne_true hh) hs]
      · have hstep : stepCase (cs, cur) l = (cs, cur) := by
          unfold stepCase
          rw [if_neg (by rw [eq_false_of_ne_true hh]; simp),
            if_neg (by rw [eq_false_of_ne_true hs]; simp)]
        rw [List.foldl_cons, hstep, ih,
          parseAux_other ls cur (eq_false_of_ne_true hh) (eq_false_of_ne_true hs)]

theorem claimSteps_cons_step {l : String} (ls : List String)
    (hh : isHeaderLine l = false) (hs : isStepLine l = true) :
    claimSteps (l :: ls) = l.trim :: claimSteps ls := by
  unfold claimSteps
  rw [List.takeWhile_cons_of_pos (by rw [hh]; rfl),
    List.filter_cons_of_pos hs, List.map_cons]

theorem claimSteps_cons_other {l : String} (ls : List String)
    (hh : isHeaderLine l = false) (hs : isStepLine l = false) :
    claimSteps (l :: ls) = claimSteps ls := by
  unfold claimSteps
  rw [List.takeWhile_cons_of_pos (by rw [hh]; rfl),
    List.filter_cons_of_neg (by rw [hs]; simp)]

theorem parseAux_some (ls : List String) :
    ∀ c : TestCase,
      parseAux ls (some c) =
        { name := c.name, steps := c.steps ++ claimSteps ls } ::
          parseAux (ls.dropWhile fun l => !isHeaderLine l) none := by
  induction ls with
  | nil => intro c; simp [parseAux, claimSteps]
  | cons l ls ih =>
    intro c
    by_cases hh : isHeaderLine l
    · rw [parseAux_header ls (some c) hh]
      have hcs : claimSteps (l :: ls) = [] := by
        unfold claimSteps
        rw [List.takeWhile_cons_of_neg (by rw [hh]; simp)]
        rfl
      have hdw : ((l :: ls).dropWhile fun l => !isHeaderLine l) = l :: ls :=
        List.dropWhile_cons_of_neg (by rw [hh]; simp)
      rw [hcs, hdw, List.append_nil]
      show c :: parseAux ls _ = _ :: parseAux (l :: ls) none
      rw [parseAux_header ls none hh]
      rfl
    · have hh' := eq_false_of_ne_true hh
      have hdw : ((l :: ls).dropWhile fun l => !isHeaderLine l) =
          ls.dropWhile fun l => !isHeaderLine l :=
        List.dropWhile_cons_of_pos (by rw [hh']; rfl)
      by_cases hs : isStepLine l
      · rw [parseAux_step ls (some c) hh' hs, Option.map_some']
        rw [ih { name := c.name, steps := c.steps ++ [l.trim] }]
        rw [claimSteps_cons_step ls hh' hs, hdw]
        simp
      · have hs' := eq_false_of_ne_true hs
        rw [parseAux_other ls (some c) hh' hs', ih c,
          claimSteps_cons_other ls hh' hs', hdw]

theorem claimParseGo_nil (n : Nat) : claimParseGo n [] = [] := by
  cases n <;> rfl

theorem claimParseGo_cons (fuel : Nat) (l : String) (ls : List String) :
    claimParseGo (fuel + 1) (l :: ls) =
      if isHeaderLine l then
        { name := caseNameOf l, steps := claimSteps ls } ::
          claimParseGo fuel (ls.dropWhile fun l => !isHeaderLine l)
      else claimParseGo fuel ls := rfl

theorem parseAux_none_go :
    ∀ (n : Nat) (ls : List String), ls.length ≤ n →
      parseAux ls none = claimParseGo n ls := by
  intro n
  induction n with
  | zero =>
    intro ls hl
    rw [List.length_eq_zero.mp (Nat.le_zero.mp hl), claimParseGo_nil]
    rfl
  | succ n ih =>
    intro ls hl
    rcases ls with _ | ⟨l, ls'⟩
    · rw [claimParseGo_nil]; rfl
    · rw [List.length_cons, Nat.succ_le_succ_iff] at hl
      rw [claimParseGo_cons]
      by_cases hh : isHeaderLine l
      · rw [parseAux_header ls' none hh, Option.toList_none, List.nil_append,
          parseAux_some ls' { name := caseNameOf l, steps := [] },
          List.nil_append]
        rw [ih _ (le_trans (List.dropWhile_sublist _).length_le hl)]
        rw [if_pos hh]
      · have hh' := eq_false_of_ne_true hh
        have hstep : parseAux (l :: ls') none = parseAux ls' none := by
          by_cases hs : isStepLine l
          · rw [parseAux_step ls' none hh' hs, Option.map_none']
          · rw [parseAux_other ls' none hh' (eq_false_of_ne_true hs)]
        rw [hstep, ih ls' hl]
        rw [if_neg hh]

theorem parseAux_none_eq (ls : List String) :
    parseAux ls none = claimParse ls :=
  parseAux_none_go ls.length ls (le_refl _)

end Frontend

namespace SCD2

/-- C1: For every natural key that has at least one row in the dimension
store, after a completed reconciliation run exactly one row with that
natural key has `is_current = true`, and after every intermediate
reconciliation step (a single record's reconciliation, or the expire half
of a Type-2 application) at most one row per natural key has
`is_current = true`. -/
theorem C1_exactly_one_current (t2 t1 : List String) (ts : Nat) (st : Store)
    (hwf : WF st) (hone : exactlyOneCurrent st) :
    (∀ batch, exactlyOneCurrent (runBatch t2 t1 ts st batch)) ∧
    (∀ rec, exactlyOneCurrent (reconcileRecord t2 t1 ts st rec).1) ∧
    (∀ cur, cur ∈ st.rows → cur.is_current = true →
      atMostOneCurrent (expire st cur ts)) :=
  ⟨fun batch => (runBatch_preserves t2 t1 ts batch st hwf hone).2,
   fun rec => exactlyOne_reconcileRecord hwf hone t2 t1 ts rec,
   fun cur hmem hcur => atMostOne_expire hwf hone hmem hcur ts⟩

/-- Witness for C1: a run of one new record over an empty well-formed
store keeps the exactly-one-current invariant. -/
theorem C1_exactly_one_current_witness :
    exactlyOneCurrent (runBatch ["company_name"]
      ["first_name", "last_name", "email", "phone"] 5 ⟨[], 0⟩
      [⟨"C001", fun f => if f = "company_name" then some "Acme" else none⟩]) := by
  have hwf : WF ⟨[], 0⟩ := ⟨fun r hr => absurd hr (List.not_mem_nil r), List.nodup_nil⟩
  have hone : exactlyOneCurrent ⟨[], 0⟩ := fun nk hne => absurd rfl hne
  exact (C1_exactly_one_current ["company_name"]
    ["first_name", "last_name", "email", "phone"] 5 ⟨[], 0⟩ hwf hone).1
    [⟨"C001", fun f => if f = "company_name" then some "Acme" else none⟩]

/-- C2: The classifier is the stated total function: `NewEntity` iff no
current row exists; otherwise `Type2Change` iff some tracked Type-2 field
differs under null-aware canonicalized comparison, regardless of Type-1
fields; otherwise `Type1Change` iff some tracked Type-1 field so differs;
otherwise `Unchanged`. -/
theorem C2_classifier_characterization (cur? : Option DimensionRow)
    (rec : SourceRecord) (t2 t1 : List String) :
    (classify cur? rec t2 t1 = .NewEntity ↔ cur? = none) ∧
    ∀ c, cur? = some c →
      ((classify cur? rec t2 t1 = .Type2Change ↔
          ∃ f ∈ t2, canon (c.attrs f) ≠ canon (rec.attrs f)) ∧
       (classify cur? rec t2 t1 = .Type1Change ↔
          ((∀ f ∈ t2, canon (c.attrs f) = canon (rec.attrs f)) ∧
            ∃ f ∈ t1, canon (c.attrs f) ≠ canon (rec.attrs f))) ∧
       (classify cur? rec t2 t1 = .Unchanged ↔
          ((∀ f ∈ t2, canon (c.attrs f) = canon (rec.attrs f)) ∧
            ∀ f ∈ t1, canon (c.attrs f) = canon (rec.attrs f)))) := by
  rcases cur? with _ | c
  · constructor
    · simp [classify]
    · intro c hc
      exact absurd hc (by simp)
  · constructor
    · constructor
      · intro h
        exact absurd h (classify_some_ne_new c rec t2 t1)
      · intro h
        exact absurd h (by simp)
    · intro c' hc'
      rw [Option.some.inj hc'] at *
      refine ⟨?_, ?_, ?_⟩
      · rw [classify_type2_iff]
        exact any_fieldChanged_true_iff c'.attrs rec.attrs t2
      · rw [classify_type1_iff]
        exact and_congr (any_fieldChanged_false_iff c'.attrs rec.attrs t2)
          (any_fieldChanged_true_iff c'.attrs rec.attrs t1)
      · rw [classify_unchanged_iff]
        exact and_congr (any_fieldChanged_false_iff c'.attrs rec.attrs t2)
          (any_fieldChanged_false_iff c'.attrs rec.attrs t1)

/-- Witness for C2: a concrete record whose only difference from the
current row is the Type-2 field is classified `Type2Change`. -/
theorem C2_classifier_characterization_witness :
    classify
      (some ⟨1, "C001", (fun f => if f = "company_name" then some "Acme" else none),
        0, none, true, 0, 0⟩)
      ⟨"C001", fun f => if f = "company_name" then some "Globex" else none⟩
      ["company_name"] ["phone"] = ChangeKind.Type2Change := by
  have h := C2_classifier_characterization
    (some ⟨1, "C001", (fun f => if f = "company_name" then some "Acme" else none),
      0, none, true, 0, 0⟩)
    ⟨"C001", fun f => if f = "company_name" then some "Globex" else none⟩
    ["company_name"] ["phone"]
  refine (h.2 _ rfl).1.mpr ⟨"company_name", by simp, ?_⟩
  decide

end SCD2

namespace SCD2

/-- C3: a record classified `Type2Change` is applied by `applyType2`, which
creates exactly one new row and expires exactly one old row: the surrogate
keys now are the old ones plus one fresh key, every other old row survives
unchanged, the previously current row becomes
`effective_end = ts, is_current = false, updated_at = ts`, and the new row
carries the fresh surrogate key, `effective_start = ts`,
`effective_end = none`, `is_current = true` and the incoming record's
Type-1 field values. -/
theorem C3_type2_effect (st : Store) (cur : DimensionRow) (rec : SourceRecord)
    (t2 t1 : List String) (ts : Nat) (hwf : WF st)
    (hg : getCurrent st rec.natural_key = some cur)
    (hc : classify (some cur) rec t2 t1 = .Type2Change) :
    (reconcileRecord t2 t1 ts st rec).1 = applyType2 st cur rec ts ∧
    (applyType2 st cur rec ts).rows.length = st.rows.length + 1 ∧
    ((applyType2 st cur rec ts).rows.map fun r => r.surrogate_key) =
      (st.rows.map fun r => r.surrogate_key) ++ [st.nextKey] ∧
    (∀ r ∈ st.rows, r.surrogate_key ≠ cur.surrogate_key →
      r ∈ (applyType2 st cur rec ts).rows) ∧
    expireRow cur ts ∈ (applyType2 st cur rec ts).rows ∧
    (expireRow cur ts).effective_end = some ts ∧
    (expireRow cur ts).is_current = false ∧
    (expireRow cur ts).updated_at = ts ∧
    (expireRow cur ts).surrogate_key = cur.surrogate_key ∧
    (expireRow cur ts).effective_start = cur.effective_start ∧
    newRow (expire st cur ts) rec ts ∈ (applyType2 st cur rec ts).rows ∧
    (newRow (expire st cur ts) rec ts).surrogate_key = st.nextKey ∧
    (∀ r ∈ st.rows, r.surrogate_key ≠ st.nextKey) ∧
    (newRow (expire st cur ts) rec ts).effective_start = ts ∧
    (newRow (expire st cur ts) rec ts).effective_end = none ∧
    (newRow (expire st cur ts) rec ts).is_current = true ∧
    ∀ f ∈ t1, (newRow (expire st cur ts) rec ts).attrs f = rec.attrs f := by
  have hcur : cur ∈ st.rows := (getCurrent_some_mem hg).1
  have hshape : (applyType2 st cur rec ts).rows =
      (st.rows.map fun r =>
        if r.surrogate_key = cur.surrogate_key then expireRow r ts else r) ++
        [newRow (expire st cur ts) rec ts] := rfl
  refine ⟨?_, ?_, ?_, ?_, ?_, rfl, rfl, rfl, rfl, rfl, ?_, rfl, ?_, rfl, rfl, rfl,
    fun f _ => rfl⟩
  · rw [reconcileRecord_type2 hg hc]
  · rw [hshape, List.length_append, List.length_map, List.length_singleton]
  · rw [hshape, List.map_append, List.map_map, List.map_singleton]
    congr 1
    apply List.map_congr_left
    intro r _
    by_cases h : r.surrogate_key = cur.surrogate_key
    · show (if r.surrogate_key = cur.surrogate_key then expireRow r ts
        else r).surrogate_key = r.surrogate_key
      rw [if_pos h]
      rfl
    · show (if r.surrogate_key = cur.surrogate_key then expireRow r ts
        else r).surrogate_key = r.surrogate_key
      rw [if_neg h]
  · intro r hr hne
    rw [hshape]
    apply List.mem_append_left
    have : (if r.surrogate_key = cur.surrogate_key then expireRow r ts else r)
        ∈ st.rows.map fun r =>
          if r.surrogate_key = cur.surrogate_key then expireRow r ts else r :=
      List.mem_map_of_mem _ hr
    rw [if_neg hne] at this
    exact this
  · rw [hshape]
    apply List.mem_append_left
    have : (if cur.surrogate_key = cur.surrogate_key then expireRow cur ts
        else cur) ∈ st.rows.map fun r =>
          if r.surrogate_key = cur.surrogate_key then expireRow r ts else r :=
      List.mem_map_of_mem _ hcur
    rw [if_pos rfl] at this
    exact this
  · rw [hshape]
    exact List.mem_append_right _ (List.mem_singleton.mpr rfl)
  · intro r hr he
    exact absurd (he ▸ hwf.1 r hr) (lt_irrefl st.nextKey)

/-- Witness for C3: applying a Type-2 change at a concrete one-row store
adds exactly one row. -/
theorem C3_type2_effect_witness :
    (applyType2
      ⟨[⟨1, "C001", (fun f => if f = "company_name" then some "Acme" else none),
        0, none, true, 0, 0⟩], 2⟩
      ⟨1, "C001", (fun f => if f = "company_name" then some "Acme" else none),
        0, none, true, 0, 0⟩
      ⟨"C001", fun f => if f = "company_name" then some "Globex" else none⟩
      7).rows.length =
      [(⟨1, "C001", (fun f => if f = "company_name" then some "Acme" else none),
        0, none, true, 0, 0⟩ : DimensionRow)].length + 1 := by
  have hwf : WF ⟨[⟨1, "C001",
      (fun f => if f = "company_name" then some "Acme" else none),
      0, none, true, 0, 0⟩], 2⟩ := by
    constructor
    · intro r hr
      rw [List.mem_singleton] at hr
      subst hr
      decide
    · decide
  have h := C3_type2_effect
    ⟨[⟨1, "C001", (fun f => if f = "company_name" then some "Acme" else none),
      0, none, true, 0, 0⟩], 2⟩
    ⟨1, "C001", (fun f => if f = "company_name" then some "Acme" else none),
      0, none, true, 0, 0⟩
    ⟨"C001", fun f => if f = "company_name" then some "Globex" else none⟩
    ["company_name"] ["phone"] 7 hwf rfl (by decide)
  exact h.2.1

end SCD2

namespace SCD2

/-- C5: the transactional `applyType2` either applies both the expiry and
the insert, or neither: on failure the store is unchanged and the prior
current row remains current and unmodified; on success the expired old row
and the new current row are both present; and in both cases every natural
key with rows keeps exactly one current row, so an expired-but-orphaned
key is never observable. -/
theorem C5_type2_atomicity (st : Store) (cur : DimensionRow)
    (rec : SourceRecord) (ts : Nat) (insertFails : Bool) (hwf : WF st)
    (hone : exactlyOneCurrent st)
    (hg : getCurrent st rec.natural_key = some cur) :
    (insertFails = true → applyType2Tx st cur rec ts insertFails = st ∧
      getCurrent (applyType2Tx st cur rec ts insertFails) rec.natural_key =
        some cur) ∧
    (insertFails = false →
      expireRow cur ts ∈ (applyType2Tx st cur rec ts insertFails).rows ∧
      newRow (expire st cur ts) rec ts ∈
        (applyType2Tx st cur rec ts insertFails).rows ∧
      getCurrent (applyType2Tx st cur rec ts insertFails) rec.natural_key =
        some (newRow (expire st cur ts) rec ts)) ∧
    exactlyOneCurrent (applyType2Tx st cur rec ts insertFails) := by
  have hcur : cur ∈ st.rows := (getCurrent_some_mem hg).1
  cases insertFails
  · refine ⟨fun h => Bool.noConfusion h, fun _ => ⟨?_, ?_, ?_⟩, ?_⟩
    · show expireRow cur ts ∈ (applyType2 st cur rec ts).rows
      apply List.mem_append_left
      have : (if cur.surrogate_key = cur.surrogate_key then expireRow cur ts
          else cur) ∈ st.rows.map fun r =>
            if r.surrogate_key = cur.surrogate_key then expireRow r ts else r :=
        List.mem_map_of_mem _ hcur
      rw [if_pos rfl] at this
      exact this
    · show newRow (expire st cur ts) rec ts ∈ (applyType2 st cur rec ts).rows
      exact List.mem_append_right _ (List.mem_singleton.mpr rfl)
    · exact getCurrent_applyType2_self hone hg
    · exact exactlyOne_applyType2 hwf hone hg
  · exact ⟨fun _ => ⟨rfl, hg⟩, fun h => Bool.noConfusion h, hone⟩

/-- Witness for C5: at a concrete store, the failing transaction leaves the
prior current row current. -/
theorem C5_type2_atomicity_witness :
    getCurrent
      (applyType2Tx
        ⟨[⟨1, "C001", (fun f => if f = "company_name" then some "Acme" else none),
          0, none, true, 0, 0⟩], 2⟩
        ⟨1, "C001", (fun f => if f = "company_name" then some "Acme" else none),
          0, none, true, 0, 0⟩
        ⟨"C001", fun f => if f = "company_name" then some "Globex" else none⟩
        7 true)
      "C001" =
      some ⟨1, "C001", (fun f => if f = "company_name" then some "Acme" else none),
        0, none, true, 0, 0⟩ := by
  have hwf : WF ⟨[⟨1, "C001",
      (fun f => if f = "company_name" then some "Acme" else none),
      0, none, true, 0, 0⟩], 2⟩ := by
    constructor
    · intro r hr
      rw [List.mem_singleton] at hr
      subst hr
      decide
    · decide
  have hone : exactlyOneCurrent ⟨[⟨1, "C001",
      (fun f => if f = "company_name" then some "Acme" else none),
      0, none, true, 0, 0⟩], 2⟩ := by
    intro nk hne
    unfold currentRows keyRows at *
    simp only at hne ⊢
    by_cases h : ((⟨1, "C001",
        (fun f => if f = "company_name" then some "Acme" else none),
        0, none, true, 0, 0⟩ : DimensionRow).natural_key == nk) = true
    · rw [List.filter_cons_of_pos
          (p := fun r : DimensionRow => r.natural_key == nk) h,
        List.filter_nil,
        List.filter_cons_of_pos (p := fun r : DimensionRow => r.is_current) rfl,
        List.filter_nil, List.length_singleton]
    · exfalso
      apply hne
      rw [List.filter_cons_of_neg
          (p := fun r : DimensionRow => r.natural_key == nk)
          (fun hcon => h hcon),
        List.filter_nil]
  have h := C5_type2_atomicity
    ⟨[⟨1, "C001", (fun f => if f = "company_name" then some "Acme" else none),
      0, none, true, 0, 0⟩], 2⟩
    ⟨1, "C001", (fun f => if f = "company_name" then some "Acme" else none),
      0, none, true, 0, 0⟩
    ⟨"C001", fun f => if f = "company_name" then some "Globex" else none⟩
    7 true hwf hone rfl
  exact (h.1 rfl).2

end SCD2

namespace SCD2

/-- C6: a record classified `Type1Change` is applied by `applyType1`, which
creates no row and mutates only the Type-1 fields and `updated_at` of the
existing current row: row count and key allocator are unchanged, every row
with a different surrogate key is unchanged in place, every other natural
key's rows are unchanged, and the updated row keeps its surrogate key,
effective dates, currency flag, creation timestamp and all values of
fields outside the Type-1 set (in particular the Type-2 fields). -/
theorem C6_type1_frame (st : Store) (cur : DimensionRow) (rec : SourceRecord)
    (t2 t1 : List String) (ts : Nat) (hwf : WF st)
    (hg : getCurrent st rec.natural_key = some cur)
    (hc : classify (some cur) rec t2 t1 = .Type1Change)
    (hdisj : ∀ f ∈ t2, f ∉ t1) :
    (reconcileRecord t2 t1 ts st rec).1 = applyType1 st cur rec t1 ts ∧
    (applyType1 st cur rec t1 ts).rows.length = st.rows.length ∧
    (applyType1 st cur rec t1 ts).nextKey = st.nextKey ∧
    (∀ (i : Nat) (r : DimensionRow), st.rows[i]? = some r →
      r.surrogate_key ≠ cur.surrogate_key →
      (applyType1 st cur rec t1 ts).rows[i]? = some r) ∧
    (∀ nk, nk ≠ rec.natural_key →
      keyRows (applyType1 st cur rec t1 ts) nk = keyRows st nk) ∧
    (∀ (i : Nat), st.rows[i]? = some cur →
      (applyType1 st cur rec t1 ts).rows[i]? =
        some { cur with attrs := type1Merge cur.attrs rec.attrs t1, updated_at := ts }) ∧
    ({ cur with attrs := type1Merge cur.attrs rec.attrs t1, updated_at := ts } : DimensionRow).surrogate_key = cur.surrogate_key ∧
    ({ cur with attrs := type1Merge cur.attrs rec.attrs t1, updated_at := ts } : DimensionRow).effective_start = cur.effective_start ∧
    ({ cur with attrs := type1Merge cur.attrs rec.attrs t1, updated_at := ts } : DimensionRow).effective_end = cur.effective_end ∧
    ({ cur with attrs := type1Merge cur.attrs rec.attrs t1, updated_at := ts } : DimensionRow).is_current = cur.is_current ∧
    ({ cur with attrs := type1Merge cur.attrs rec.attrs t1, updated_at := ts } : DimensionRow).created_at = cur.created_at ∧
    (∀ f, f ∉ t1 →
      ({ cur with attrs := type1Merge cur.attrs rec.attrs t1, updated_at := ts } : DimensionRow).attrs f = cur.attrs f) ∧
    (∀ f ∈ t2,
      ({ cur with attrs := type1Merge cur.attrs rec.attrs t1, updated_at := ts } : DimensionRow).attrs f = cur.attrs f) ∧
    (∀ f ∈ t1,
      ({ cur with attrs := type1Merge cur.attrs rec.attrs t1, updated_at := ts } : DimensionRow).attrs f = rec.attrs f) := by
  have hm := getCurrent_some_mem hg
  have hshape : (applyType1 st cur rec t1 ts).rows =
      st.rows.map fun r =>
        if r.surrogate_key = cur.surrogate_key then
          { r with attrs := type1Merge r.attrs rec.attrs t1, updated_at := ts }
        else r := rfl
  refine ⟨?_, ?_, rfl, ?_, ?_, ?_, rfl, rfl, rfl, rfl, rfl, ?_, ?_, ?_⟩
  · rw [reconcileRecord_type1 hg hc]
  · rw [hshape, List.length_map]
  · intro i r hir hne
    rw [hshape, List.getElem?_map, hir, Option.map_some', if_neg hne]
  · intro nk hnk
    apply keyRows_applyType1_ne hwf hm.1 rec t1 ts
    rw [hm.2.1]
    exact fun he => hnk he.symm
  · intro i hir
    rw [hshape, List.getElem?_map, hir, Option.map_some', if_pos rfl]
  · intro f hf
    show type1Merge cur.attrs rec.attrs t1 f = cur.attrs f
    unfold type1Merge
    rw [if_neg hf]
  · intro f hf
    show type1Merge cur.attrs rec.attrs t1 f = cur.attrs f
    unfold type1Merge
    rw [if_neg (hdisj f hf)]
  · intro f hf
    show type1Merge cur.attrs rec.attrs t1 f = rec.attrs f
    unfold type1Merge
    rw [if_pos hf]

/-- Witness for C6: a concrete phone-only change keeps the row count of a
one-row store. -/
theorem C6_type1_frame_witness :
    (applyType1
      ⟨[⟨1, "C001", (fun f => if f = "company_name" then some "Acme"
          else if f = "phone" then some "555-0001" else none),
        0, none, true, 0, 0⟩], 2⟩
      ⟨1, "C001", (fun f => if f = "company_name" then some "Acme"
          else if f = "phone" then some "555-0001" else none),
        0, none, true, 0, 0⟩
      ⟨"C001", fun f => if f = "company_name" then some "Acme"
          else if f = "phone" then some "555-9999" else none⟩
      ["phone"] 7).rows.length =
      [(⟨1, "C001", (fun f => if f = "company_name" then some "Acme"
          else if f = "phone" then some "555-0001" else none),
        0, none, true, 0, 0⟩ : DimensionRow)].length := by
  have hwf : WF ⟨[⟨1, "C001", (fun f => if f = "company_name" then some "Acme"
      else if f = "phone" then some "555-0001" else none),
      0, none, true, 0, 0⟩], 2⟩ := by
    constructor
    · intro r hr
      rw [List.mem_singleton] at hr
      subst hr
      decide
    · decide
  have h := C6_type1_frame
    ⟨[⟨1, "C001", (fun f => if f = "company_name" then some "Acme"
        else if f = "phone" then some "555-0001" else none),
      0, none, true, 0, 0⟩], 2⟩
    ⟨1, "C001", (fun f => if f = "company_name" then some "Acme"
        else if f = "phone" then some "555-0001" else none),
      0, none, true, 0, 0⟩
    ⟨"C001", fun f => if f = "company_name" then some "Acme"
        else if f = "phone" then some "555-9999" else none⟩
    ["company_name"] ["phone"] 7 hwf rfl (by decide) (by decide)
  exact h.2.1

end SCD2

namespace SCD2

/-- C4: starting from a store whose per-key version histories are
well-formed chains and predate the run timestamp, every reconciliation
step and the completed run preserve the chain invariant; consequently, for
every natural key of the resulting store the closed rows' effective
intervals are pairwise non-overlapping, together with the current row's
open interval they cover time gap-free from the first insert onward, and
every closed row satisfies `effective_start < effective_end`. -/
theorem C4_temporal_history (t2 t1 : List String) (ts : Nat) (st : Store)
    (batch : List SourceRecord) (hwf : WF st) (hchain : storeChainOk st)
    (hnod : (batch.map fun r => r.natural_key).Nodup)
    (hts : ∀ r ∈ st.rows, r.effective_start < ts) :
    (∀ rec, storeChainOk (reconcileRecord t2 t1 ts st rec).1) ∧
    storeChainOk (runBatch t2 t1 ts st batch) ∧
    ∀ nk,
      (∀ a ∈ keyRows (runBatch t2 t1 ts st batch) nk,
        ∀ b ∈ keyRows (runBatch t2 t1 ts st batch) nk, a ≠ b →
        a.effective_end ≠ none → b.effective_end ≠ none →
        ∀ t : Nat, ¬(inInterval a t ∧ inInterval b t)) ∧
      (∀ t : Nat,
        (∃ r ∈ keyRows (runBatch t2 t1 ts st batch) nk,
          r.effective_start ≤ t) →
        ∃ r ∈ keyRows (runBatch t2 t1 ts st batch) nk, inInterval r t) ∧
      (∀ r ∈ keyRows (runBatch t2 t1 ts st batch) nk,
        ∀ e, r.effective_end = some e → r.effective_start < e) := by
  have hrun : storeChainOk (runBatch t2 t1 ts st batch) :=
    chain_runBatch t2 t1 ts batch st hwf hchain hnod
      fun rec _ r hr => hts r (mem_keyRows.mp hr).1
  refine ⟨?_, hrun, ?_⟩
  · intro rec
    exact chain_reconcile hwf hchain t2 t1 ts rec
      fun r hr => hts r (mem_keyRows.mp hr).1
  · intro nk
    exact ⟨chainOk_disjoint (hrun nk), chainOk_cover (hrun nk),
      chainOk_closed_lt (hrun nk)⟩

/-- Witness for C4: a one-record run over the empty store keeps the chain
invariant. -/
theorem C4_temporal_history_witness :
    storeChainOk (runBatch ["company_name"] ["phone"] 5 ⟨[], 0⟩
      [⟨"C001", fun f => if f = "company_name" then some "Acme" else none⟩]) := by
  have hwf : WF ⟨[], 0⟩ :=
    ⟨fun r hr => absurd hr (List.not_mem_nil r), List.nodup_nil⟩
  have hchain : storeChainOk ⟨[], 0⟩ := fun _ => chainOk_nil
  have h := C4_temporal_history ["company_name"] ["phone"] 5 ⟨[], 0⟩
    [⟨"C001", fun f => if f = "company_name" then some "Acme" else none⟩]
    hwf hchain (by simp) (fun r hr => absurd hr (List.not_mem_nil r))
  exact h.2.1

/-- C7: reconciliation is idempotent: after a completed run of a batch
with pairwise distinct natural keys, running the same batch again (at any
timestamp) classifies every record `Unchanged`, leaves the store equal,
and performs zero insert and zero update calls. -/
theorem C7_idempotence (t2 t1 : List String) (ts ts' : Nat) (st : Store)
    (batch : List SourceRecord) (hwf : WF st) (hone : exactlyOneCurrent st)
    (hnod : (batch.map fun r => r.natural_key).Nodup) :
    (∀ rec ∈ batch,
      classify (getCurrent (runBatch t2 t1 ts st batch) rec.natural_key)
        rec t2 t1 = .Unchanged) ∧
    runBatchK t2 t1 ts' (runBatch t2 t1 ts st batch) batch =
      (runBatch t2 t1 ts st batch, batch.map fun _ => ChangeKind.Unchanged) ∧
    ((runBatchK t2 t1 ts' (runBatch t2 t1 ts st batch) batch).2.map
      writesOf).sum = 0 := by
  have hfirst : ∀ rec ∈ batch,
      classify (getCurrent (runBatch t2 t1 ts st batch) rec.natural_key)
        rec t2 t1 = .Unchanged := by
    intro rec hrec
    rcases runBatch_agree t2 t1 ts batch st hwf hone hnod rec hrec with
      ⟨r, hr, h2, h1⟩
    rw [hr, classify_unchanged_iff]
    exact ⟨(any_fieldChanged_false_iff r.attrs rec.attrs t2).mpr h2,
      (any_fieldChanged_false_iff r.attrs rec.attrs t1).mpr h1⟩
  have hsecond := runBatchK_unchanged t2 t1 ts' batch _ hfirst
  refine ⟨hfirst, hsecond, ?_⟩
  rw [hsecond]
  apply List.sum_eq_zero
  intro x hx
  simp only [List.map_map] at hx
  rcases List.mem_map.mp hx with ⟨rec, _, hxw⟩
  rw [← hxw]
  rfl

/-- Witness for C7: running one record over the empty store and then
running it again leaves the store unchanged with an `Unchanged`
classification. -/
theorem C7_idempotence_witness :
    runBatchK ["company_name"] ["phone"] 9
      (runBatch ["company_name"] ["phone"] 5 ⟨[], 0⟩
        [⟨"C001", fun f => if f = "company_name" then some "Acme" else none⟩])
      [⟨"C001", fun f => if f = "company_name" then some "Acme" else none⟩] =
      (runBatch ["company_name"] ["phone"] 5 ⟨[], 0⟩
        [⟨"C001", fun f => if f = "company_name" then some "Acme" else none⟩],
       [ChangeKind.Unchanged]) := by
  have hwf : WF ⟨[], 0⟩ :=
    ⟨fun r hr => absurd hr (List.not_mem_nil r), List.nodup_nil⟩
  have hone : exactlyOneCurrent ⟨[], 0⟩ := fun nk hne => absurd rfl hne
  have h := C7_idempotence ["company_name"] ["phone"] 5 9 ⟨[], 0⟩
    [⟨"C001", fun f => if f = "company_name" then some "Acme" else none⟩]
    hwf hone (by simp)
  exact h.2.1

end SCD2

namespace SCD2

/-- C8: the Driver distinguishes record-level from batch-level failures:
an invalid header aborts before any record; a per-record error (a
malformed row, or a StaleRowError failing again after its single retry)
marks exactly that record failed, appends its natural key to the errors
list, and processing continues to the end of the batch; a
StoreUnavailableError aborts the remaining batch and surfaces the partial
summary accumulated so far. -/
theorem C8_driver_error_policy (t2 t1 : List String) (ts : Nat) (st : Store)
    (items pre post : List (SourceRecord × Outcome)) (rec : SourceRecord)
    (o : Outcome) :
    runDriver false t2 t1 ts st items = (emptySummary, st, true) ∧
    ((o = .malformed ∨ o = .staleTwice) → noStoreDown pre → noStoreDown post →
      (runDriver true t2 t1 ts st (pre ++ (rec, o) :: post)).2.2 = false ∧
      rec.natural_key ∈
        (runDriver true t2 t1 ts st (pre ++ (rec, o) :: post)).1.errors ∧
      (runDriver true t2 t1 ts st (pre ++ (rec, o) :: post)).1.processed =
        pre.length + 1 + post.length ∧
      (runDriver true t2 t1 ts st (pre ++ (rec, o) :: post)).1.errors =
        (((pre ++ (rec, o) :: post).filter fun it => isRecordError it.2).map
          fun it => it.1.natural_key)) ∧
    (noStoreDown pre →
      runDriver true t2 t1 ts st (pre ++ (rec, Outcome.storeDown) :: post) =
        ((driverGo t2 t1 ts st emptySummary pre).1,
          (driverGo t2 t1 ts st emptySummary pre).2.1, true) ∧
      (runDriver true t2 t1 ts st
        (pre ++ (rec, Outcome.storeDown) :: post)).1.processed = pre.length) := by
  refine ⟨rfl, ?_, ?_⟩
  · intro ho hpre hpost
    have hmid : noStoreDown (pre ++ (rec, o) :: post) := by
      intro it hit
      rcases List.mem_append.mp hit with h | h
      · exact hpre it h
      · rcases List.mem_cons.mp h with h | h
        · subst h
          rcases ho with h | h <;> · rw [h]; intro hcon; exact Outcome.noConfusion hcon
        · exact hpost it h
    have hchar := driverGo_char t2 t1 ts (pre ++ (rec, o) :: post) hmid st
      emptySummary
    have hrun : runDriver true t2 t1 ts st (pre ++ (rec, o) :: post) =
        driverGo t2 t1 ts st emptySummary (pre ++ (rec, o) :: post) := rfl
    have hoerr : isRecordError o = true := by
      rcases ho with h | h <;> rw [h] <;> rfl
    have hmem : (rec, o) ∈
        (pre ++ (rec, o) :: post).filter fun it => isRecordError it.2 :=
      List.mem_filter.mpr
        ⟨List.mem_append_right pre (List.mem_cons_self _ _), hoerr⟩
    refine ⟨?_, ?_, ?_, ?_⟩
    · rw [hrun]; exact hchar.1
    · rw [hrun, hchar.2.2.2]
      exact List.mem_append_right _
        (List.mem_map_of_mem (fun it => it.1.natural_key) hmem)
    · rw [hrun, hchar.2.1]
      show 0 + (pre ++ (rec, o) :: post).length = _
      rw [List.length_append, List.length_cons]
      omega
    · rw [hrun, hchar.2.2.2]
      rfl
  · intro hpre
    have hsplit := driverGo_append t2 t1 ts pre hpre
      ((rec, Outcome.storeDown) :: post) st emptySummary
    have hrun : runDriver true t2 t1 ts st
        (pre ++ (rec, Outcome.storeDown) :: post) =
        driverGo t2 t1 ts st emptySummary
          (pre ++ (rec, Outcome.storeDown) :: post) := rfl
    have hdown : driverGo t2 t1 ts
        (driverGo t2 t1 ts st emptySummary pre).2.1
        (driverGo t2 t1 ts st emptySummary pre).1
        ((rec, Outcome.storeDown) :: post) =
        ((driverGo t2 t1 ts st emptySummary pre).1,
          (driverGo t2 t1 ts st emptySummary pre).2.1, true) := rfl
    constructor
    · rw [hrun, hsplit, hdown]
    · rw [hrun, hsplit, hdown]
      have hchar := driverGo_char t2 t1 ts pre hpre st emptySummary
      show (driverGo t2 t1 ts st emptySummary pre).1.processed = pre.length
      rw [hchar.2.1]
      show 0 + pre.length = pre.length
      omega

/-- Witness for C8: a single malformed record is recorded in the errors
list of a completed (non-aborted) run. -/
theorem C8_driver_error_policy_witness :
    "C001" ∈
      (runDriver true ["company_name"] ["phone"] 5 ⟨[], 0⟩
        [(⟨"C001", fun f => if f = "company_name" then some "Acme" else none⟩,
          Outcome.malformed)]).1.errors := by
  have h := C8_driver_error_policy ["company_name"] ["phone"] 5 ⟨[], 0⟩
    [] [] []
    ⟨"C001", fun f => if f = "company_name" then some "Acme" else none⟩
    Outcome.malformed
  exact (h.2.1 (Or.inl rfl) (fun it hit => absurd hit (List.not_mem_nil it))
    (fun it hit => absurd hit (List.not_mem_nil it))).2.1

end SCD2

namespace Frontend

theorem toggleList_mem_self (l : List String) (id : String) :
    (id ∈ toggleList l id) ↔ ¬ id ∈ l := by
  unfold toggleList
  by_cases hmem : id ∈ l
  · rw [if_pos (List.elem_iff.mpr hmem)]
    constructor
    · intro h
      have hne := (List.mem_filter.mp h).2
      simp at hne
    · intro h
      exact absurd hmem h
  · rw [if_neg fun hcon => hmem (List.elem_iff.mp hcon)]
    constructor
    · intro _
      exact hmem
    · intro _
      exact List.mem_append_right l (List.mem_singleton.mpr rfl)

theorem toggleList_mem_ne (l : List String) (id x : String) (hx : x ≠ id) :
    (x ∈ toggleList l id) ↔ x ∈ l := by
  unfold toggleList
  by_cases hmem : id ∈ l
  · rw [if_pos (List.elem_iff.mpr hmem)]
    constructor
    · intro h
      exact (List.mem_filter.mp h).1
    · intro h
      refine List.mem_filter.mpr ⟨h, ?_⟩
      simp only [bne_iff_ne]
      exact hx
  · rw [if_neg fun hcon => hmem (List.elem_iff.mp hcon)]
    rw [List.mem_append, List.mem_singleton]
    constructor
    · rintro (h | h)
      · exact h
      · exact absurd h hx
    · exact fun h => Or.inl h

theorem toggleList_absent (l : List String) (id : String) (h : ¬ id ∈ l) :
    toggleList l id = l ++ [id] := by
  unfold toggleList
  rw [if_neg fun hcon => h (List.elem_iff.mp hcon)]

theorem chosenList_toggle (s : FormSelections) (id t : String) :
    chosenList (handleConnectionToggle s id t) t =
      toggleList (chosenList s t) id := by
  unfold chosenList handleConnectionToggle
  by_cases h : t = "source" <;> simp [h]

theorem otherList_toggle (s : FormSelections) (id t : String) :
    otherList (handleConnectionToggle s id t) t = otherList s t := by
  unfold otherList handleConnectionToggle
  by_cases h : t = "source" <;> simp [h]

/-- C9: `parseTestCases` returns exactly one test case per line whose
trimmed form starts with `Feature:`, `Scenario:` or `- name:`, in input
order, with that prefix and the following whitespace stripped to form the
name; each line whose trimmed form starts with `Given`, `When`, `Then`,
`And` or `-` is appended (trimmed) as a step to the most recently opened
case, and step lines before the first case header are discarded — the
declarative segment-based reading `claimParse` of the line list. -/
theorem C9_parse_test_cases (text : String) :
    parseTestCases text = claimParse (text.splitOn "\n") := by
  show ((text.splitOn "\n").foldl stepCase ([], none)).1 ++
      ((text.splitOn "\n").foldl stepCase ([], none)).2.toList = _
  rw [foldl_stepCase (text.splitOn "\n") [] none, List.nil_append]
  exact parseAux_none_eq _

/-- C10: `handleConnectionToggle` changes the membership of exactly the
toggled id in the list chosen by the connection type (the source list for
`source`, the target list otherwise): the id is removed if present and
appended at the end if absent, every other id's membership and the other
list are unchanged, and applying the toggle twice restores the original
membership of both lists. -/
theorem C10_connection_toggle (s : FormSelections) (id t : String) :
    ((id ∈ chosenList (handleConnectionToggle s id t) t) ↔
      ¬ id ∈ chosenList s t) ∧
    (∀ x, x ≠ id →
      ((x ∈ chosenList (handleConnectionToggle s id t) t) ↔
        x ∈ chosenList s t)) ∧
    otherList (handleConnectionToggle s id t) t = otherList s t ∧
    (¬ id ∈ chosenList s t →
      chosenList (handleConnectionToggle s id t) t = chosenList s t ++ [id]) ∧
    (∀ x, (x ∈ chosenList
        (handleConnectionToggle (handleConnectionToggle s id t) id t) t) ↔
      x ∈ chosenList s t) ∧
    otherList (handleConnectionToggle (handleConnectionToggle s id t) id t) t =
      otherList s t := by
  refine ⟨?_, ?_, otherList_toggle s id t, ?_, ?_, ?_⟩
  · rw [chosenList_toggle]
    exact toggleList_mem_self (chosenList s t) id
  · intro x hx
    rw [chosenList_toggle]
    exact toggleList_mem_ne (chosenList s t) id x hx
  · intro h
    rw [chosenList_toggle]
    exact toggleList_absent (chosenList s t) id h
  · intro x
    rw [chosenList_toggle, chosenList_toggle]
    by_cases hx : x = id
    · subst hx
      rw [toggleList_mem_self, toggleList_mem_self]
      exact not_not
    · rw [toggleList_mem_ne _ id x hx, toggleList_mem_ne _ id x hx]
  · rw [otherList_toggle, otherList_toggle]

/-- Witness for C10: toggling an absent id appends it to the end of the
source list. -/
theorem C10_connection_toggle_witness :
    chosenList (handleConnectionToggle ⟨[], ["conn-003"]⟩ "conn-001" "source")
      "source" = [] ++ ["conn-001"] := by
  have h := C10_connection_toggle ⟨[], ["conn-003"]⟩ "conn-001" "source"
  exact h.2.2.2.1 (by simp [chosenList])

end Frontend
